import Mathlib

/-!
# Verification of the mongolite/buryat query engine

A shallow embedding, in Lean 4, of the query matching engine and mutation
pipeline of `src/mongolite.js` (and its near-identical sibling implementation).
JavaScript values are modelled by the inductive type `Val`; JS numbers are
modelled by `Int` (the claims under study never depend on fractional or
floating-point behaviour), `NaN` is modelled by `none` in `Option Int`,
and `undefined` is modelled by `none` in `Option Val`.  A regular expression
value is modelled by its matching function `String → Bool` (document values
loaded from JSON never contain regexes; regexes occur only on the query side).

Documents and query objects are insertion-ordered key/value lists, mirroring
the insertion-order key enumeration (`for (var k in O)` / `_firstKey`) that
the source relies on.  A thrown JavaScript `TypeError` and a non-terminating
loop are modelled by the `Except` error values `EvalErr.typeError` and
`EvalErr.nonTermination` respectively.
-/

/-- A JavaScript value as used by the database: booleans, numbers (modelled
by `Int`), strings, `null`, regexes (query-side only, modelled by their
matching function), objects (insertion-ordered field lists) and arrays. -/
inductive Val where
  | vNull : Val
  | vBool : Bool → Val
  | vNum : Int → Val
  | vStr : String → Val
  | vRegex : (String → Bool) → Val
  | vObj : List (String × Val) → Val
  | vArr : List Val → Val

/-- A document (or query object): an insertion-ordered field list.  A JS
object cannot repeat a key, so well-formed docs have `Nodup` keys. -/
abbrev Doc := List (String × Val)

/-- A query object, document-shaped. -/
abbrev Query := List (String × Val)

/-- JS truthiness of a value (`if (v)`). -/
def jsTruthy : Val → Bool
  | .vNull => false
  | .vBool b => b
  | .vNum n => n != 0
  | .vStr s => s != ""
  | .vRegex _ => true
  | .vObj _ => true
  | .vArr _ => true

/-- Truthiness of a possibly-`undefined` value (`undefined` is falsy). -/
def optTruthy : Option Val → Bool
  | none => false
  | some v => jsTruthy v

/-- Field lookup `row[key]`: the first binding of `key`, or `undefined`. -/
def getF (d : Doc) (k : String) : Option Val :=
  (d.find? (fun kv => kv.1 == k)).map (fun kv => kv.2)

/-- JS assignment `obj[k] = v`: update the binding in place if the key is
present (keeping its position), otherwise append it. -/
def jsSet (d : Doc) (k : String) (v : Val) : Doc :=
  if d.any (fun kv => kv.1 == k) then
    d.map (fun kv => if kv.1 == k then (k, v) else kv)
  else d ++ [(k, v)]

/-- `_firstKey(O)` (mongolite.js line 85): the first insertion-ordered key of
an object, or `null` (`none`) when there is none. -/
def firstKey (d : List (String × Val)) : Option String :=
  d.head?.map (fun kv => kv.1)

/-- String coercion `v + ''` / `String(v)`.  Objects stringify to
`"[object Object]"`, arrays to a comma join of their elements; the regex
case cannot occur in stored documents (JSON has no regexes). -/
def toJsString : Val → String
  | .vNull => "null"
  | .vBool b => if b then "true" else "false"
  | .vNum n => toString n
  | .vStr s => s
  | .vRegex _ => "[object RegExp]"
  | .vObj _ => "[object Object]"
  | .vArr l => String.intercalate "," (l.map (fun v => toJsStringShallow v))
where
  /-- Array elements stringify one level deep; nested arrays/objects use the
  same coarse coercion (the claims never compare such strings). -/
  toJsStringShallow : Val → String
    | .vNull => ""
    | .vBool b => if b then "true" else "false"
    | .vNum n => toString n
    | .vStr s => s
    | .vRegex _ => "[object RegExp]"
    | .vObj _ => "[object Object]"
    | .vArr _ => ""

/-- Whitespace for string-to-number trimming. -/
def isWs (c : Char) : Bool :=
  c == ' ' || c == '\t' || c == '\n' || c == '\r'

/-- Decimal digits of an integer numeral. -/
def digitsToNat (l : List Char) : Option Nat :=
  if l.isEmpty then none
  else l.foldl
    (fun acc c => acc.bind
      (fun n => if c.isDigit then some (n * 10 + (c.toNat - '0'.toNat)) else none))
    (some 0)

/-- An optionally signed integer numeral. -/
def parseIntChars : List Char → Option Int
  | '-' :: rest => (digitsToNat rest).map (fun n => -(n : Int))
  | '+' :: rest => (digitsToNat rest).map (fun n => (n : Int))
  | l => (digitsToNat l).map (fun n => (n : Int))

/-- `ToNumber` on a string: whitespace-only is `0`, an integer numeral is its
value, anything else is `NaN` (`none`).  (Fractional numerals are outside the
`Int` number model.) -/
def strToNumber (s : String) : Option Int :=
  let t := ((s.data.dropWhile isWs).reverse.dropWhile isWs).reverse
  if t.isEmpty then some 0 else parseIntChars t

/-- `ToNumber(v)`, with `none` standing for `NaN`.  Objects and arrays are
first string-coerced (relational comparison uses `toString` on them). -/
def toNumber : Val → Option Int
  | .vNull => some 0
  | .vBool b => some (if b then 1 else 0)
  | .vNum n => some n
  | .vStr s => strToNumber s
  | v => strToNumber (toJsString v)

/-- Code-point comparison of character lists. -/
def charListLt : List Char → List Char → Bool
  | [], [] => false
  | [], _ :: _ => true
  | _ :: _, [] => false
  | a :: as, b :: bs =>
    if a.toNat < b.toNat then true
    else if b.toNat < a.toNat then false
    else charListLt as bs

/-- Code-point order on strings: models both JS `<` on strings and the sign
of `localeCompare` (the claims depend only on it being a strict total
order). -/
def strLt (x y : String) : Bool := charListLt x.data y.data

/-- Strict equality `a === b`: same primitive type and value; reference types
(objects, arrays, regexes) compare by reference, which distinct values in a
query versus a stored document never share, hence `false`. -/
def jsStrictEq : Val → Val → Bool
  | .vNull, .vNull => true
  | .vBool a, .vBool b => a == b
  | .vNum a, .vNum b => a == b
  | .vStr a, .vStr b => a == b
  | _, _ => false

/-- `ToPrimitive` for relational comparison: objects, arrays and regexes
become their string form. -/
def toPrimitive : Val → Val
  | .vObj fs => .vStr (toJsString (.vObj fs))
  | .vArr l => .vStr (toJsString (.vArr l))
  | .vRegex r => .vStr (toJsString (.vRegex r))
  | v => v

/-- The JS abstract relational comparison `a < b`; `none` is the *undefined*
outcome produced by a `NaN` operand.  Two strings compare lexicographically,
otherwise both sides are numbercoerced. -/
def jsCmpLt (a b : Val) : Option Bool :=
  match toPrimitive a, toPrimitive b with
  | .vStr x, .vStr y => some (strLt x y)
  | pa, pb =>
    match toNumber pa, toNumber pb with
    | some x, some y => some (decide (x < y))
    | _, _ => none

/-- Undefined-aware relational comparison: an `undefined` operand coerces to
`NaN`, so the outcome is *undefined* (`none`). -/
def jsCmpLtU (a b : Option Val) : Option Bool :=
  match a, b with
  | some x, some y => jsCmpLt x y
  | _, _ => none

/-- `a < b` as a boolean (*undefined* outcome → `false`). -/
def jsLtB (a b : Val) : Bool := (jsCmpLt a b).getD false
/-- `a > b` as a boolean. -/
def jsGtB (a b : Val) : Bool := (jsCmpLt b a).getD false
/-- `a <= b` as a boolean: true iff `b < a` is definitely false. -/
def jsLeB (a b : Val) : Bool := jsCmpLt b a == some false
/-- `a >= b` as a boolean: true iff `a < b` is definitely false. -/
def jsGeB (a b : Val) : Bool := jsCmpLt a b == some false

/-- Undefined-aware `a > b`. -/
def jsGtBU (a b : Option Val) : Bool := (jsCmpLtU b a).getD false
/-- Undefined-aware `a < b`. -/
def jsLtBU (a b : Option Val) : Bool := (jsCmpLtU a b).getD false
/-- Undefined-aware `a >= b`. -/
def jsGeBU (a b : Option Val) : Bool := jsCmpLtU a b == some false
/-- Undefined-aware `a <= b`. -/
def jsLeBU (a b : Option Val) : Bool := jsCmpLtU b a == some false

/-! ## Clause classification and the three matchers

The matchers are polymorphic in the row type `ρ` with an explicit field
accessor `get : ρ → String → Option Val`.  JavaScript rows are object
*references*; `ρ := Doc` instantiates them to values for the read path, while
`ρ := Nat` (indices into the collection) instantiates them to handles for the
mutation path and the heap model. -/

/-- Evaluation faults: a thrown `TypeError`, or a loop that never terminates
(modelled as an error value, since Lean functions are total). -/
inductive EvalErr where
  | typeError : EvalErr
  | nonTermination : EvalErr
deriving DecidableEq

/-- The clause kinds recognised by `detect_clause_type` (mongolite.js
line 666). -/
inductive ClauseType where
  | NORMAL | SUBDOCUMENT_MATCH | CONDITIONAL | SUBDOCUMENT | OR | ARRAY | UNKNOWN
deriving DecidableEq

/-- `detect_clause_type(key, value)` (mongolite.js lines 666–696): scalars,
strings and regexes are `NORMAL` (or `SUBDOCUMENT_MATCH` for dotted keys);
an object is `CONDITIONAL` iff its first key is a comparison operator, else
`SUBDOCUMENT` (`null` has no keys, landing in `SUBDOCUMENT` as well); an
array is `OR` iff the key is `$or`, else `ARRAY`. -/
def detect_clause_type (key : String) : Val → ClauseType
  | .vBool _ => if key.data.contains '.' then .SUBDOCUMENT_MATCH else .NORMAL
  | .vNum _ => if key.data.contains '.' then .SUBDOCUMENT_MATCH else .NORMAL
  | .vStr _ => if key.data.contains '.' then .SUBDOCUMENT_MATCH else .NORMAL
  | .vRegex _ => if key.data.contains '.' then .SUBDOCUMENT_MATCH else .NORMAL
  | .vNull => .SUBDOCUMENT
  | .vObj fields =>
    match firstKey fields with
    | some "$gt" => .CONDITIONAL
    | some "$gte" => .CONDITIONAL
    | some "$lt" => .CONDITIONAL
    | some "$lte" => .CONDITIONAL
    | some "$exists" => .CONDITIONAL
    | _ => .SUBDOCUMENT
  | .vArr _ => if key == "$or" then .OR else .ARRAY

section Matchers

variable {ρ : Type}

/-- Per-row test of a `NORMAL` clause (mongolite.js `matching_rows_NORMAL`,
lines 698–736): the row is kept iff it has the key and either the regex
matches the string-coerced field value, or the field value is strictly equal
to the clause value. -/
def normalRowMatch (get : ρ → String → Option Val) (key : String) (value : Val)
    (row : ρ) : Bool :=
  match get row key with
  | none => false
  | some v =>
    match value with
    | .vRegex test => test (toJsString v)
    | _ => jsStrictEq v value

/-- `matching_rows_NORMAL`: the row loop keeps exactly the rows whose field
passes the per-row test, preserving order. -/
def matching_rows_NORMAL (get : ρ → String → Option Val) (key : String)
    (value : Val) (rows : List ρ) : List ρ :=
  rows.filter (normalRowMatch get key value)

/-- Per-row test of one conditional operator (the row loop body of
`matching_rows_CONDITIONAL`, mongolite.js lines 738–801): `$exists` tests JS
*truthiness* of the field (so `0`, `""`, `false` count as non-existent);
the four comparisons require the key present and compare with JS weak
semantics; an unrecognised operator matches nothing. -/
def condRowMatch (get : ρ → String → Option Val) (key cond : String)
    (operand : Val) (row : ρ) : Bool :=
  if cond == "$exists" then
    if jsTruthy operand then optTruthy (get row key) else !(optTruthy (get row key))
  else
    match get row key with
    | none => false
    | some v =>
      match cond with
      | "$lt" => jsLtB v operand
      | "$lte" => jsLeB v operand
      | "$gt" => jsGtB v operand
      | "$gte" => jsGeB v operand
      | _ => false

/-- One pass of `matching_rows_CONDITIONAL` on a clause value: filters the
rows by the clause value's *first* operator, then deletes that operator —
but only if the operator key is truthy (`if (cond) delete test.value[cond]`,
mongolite.js lines 803–805), so an empty-string key is never deleted.  With
an empty clause value the pass matches nothing and deletes nothing. -/
def matching_rows_CONDITIONAL_pass (get : ρ → String → Option Val) (key : String)
    (cval : List (String × Val)) (rows : List ρ) :
    List ρ × List (String × Val) :=
  match cval with
  | [] => ([], [])
  | (cond, operand) :: rest =>
    (rows.filter (condRowMatch get key cond operand),
     if cond == "" then (cond, operand) :: rest else rest)

/-- The `while (_firstKey(clauses[clause]) !== null)` loop of `do_query`
(mongolite.js lines 910–914), with explicit fuel: `none` means the loop is
still running after `fuel` passes. -/
def condLoopFuel (get : ρ → String → Option Val) (key : String) :
    Nat → List (String × Val) → List ρ → Option (List ρ)
  | _, [], rows => some rows
  | 0, _ :: _, _ => none
  | fuel + 1, (cond, operand) :: rest, rows =>
    let p := matching_rows_CONDITIONAL_pass get key ((cond, operand) :: rest) rows
    condLoopFuel get key fuel p.2 p.1

/-- The conditional while-loop iterated `n` passes, also recording the
operator key applied by each pass (each pass applies the then-first key). -/
def condLoopSteps (get : ρ → String → Option Val) (key : String) :
    Nat → List (String × Val) → List ρ →
    List ρ × List (String × Val) × List String
  | 0, cval, rows => (rows, cval, [])
  | _ + 1, [], rows => (rows, [], [])
  | n + 1, (cond, operand) :: rest, rows =>
    let p := matching_rows_CONDITIONAL_pass get key ((cond, operand) :: rest) rows
    let r := condLoopSteps get key n p.2 p.1
    (r.1, r.2.1, cond :: r.2.2)

end Matchers

section Engine

variable {ρ : Type}

/-- The conditional while-loop as a structural recursion: each pass filters by
the head operator and removes it.  A non-head empty-string operator key is
never deleted by the source (`if (cond)` is false for `""`), so the loop spins
forever there; that divergence is modelled by `EvalErr.nonTermination`. -/
def applyCONDITIONAL (get : ρ → String → Option Val) (key : String) :
    List (String × Val) → List ρ → Except EvalErr (List ρ)
  | [], rows => .ok rows
  | (cond, operand) :: rest, rows =>
    if cond == "" then .error .nonTermination
    else applyCONDITIONAL get key rest (rows.filter (condRowMatch get key cond operand))

/-- Per-row evaluation of one `$or` sub-clause (the inner `j` loop body of
`matching_rows_OR`, mongolite.js lines 819–883).  Unlike the top-level
matchers: a regex sub-clause calls `.match` on the raw field value, which
throws a `TypeError` unless that value is a string; and `$exists` tests
presence (`!== undefined`), not truthiness.  Comparisons tolerate an
`undefined` field (`NaN` compares false).  Sub-clauses of unsupported kinds
contribute no match.  (The source would enumerate the indices of a non-object
sub-clause; no claim exercises that, and it is modelled as no-match.) -/
def orSubEval (get : ρ → String → Option Val) (row : ρ) (sub : Val) :
    Except EvalErr Bool :=
  match sub with
  | .vObj [] => .ok false
  | .vObj ((k, v) :: _) =>
    match detect_clause_type k v with
    | .NORMAL =>
      match v with
      | .vRegex test =>
        match get row k with
        | some (.vStr s) => .ok (test s)
        | _ => .error .typeError
      | _ =>
        .ok (match get row k with
             | some w => jsStrictEq w v
             | none => false)
    | .CONDITIONAL =>
      match v with
      | .vObj cfields =>
        match firstKey cfields with
        | some "$gt" => .ok (jsGtBU (get row k) (getF cfields "$gt"))
        | some "$gte" => .ok (jsGeBU (get row k) (getF cfields "$gte"))
        | some "$lt" => .ok (jsLtBU (get row k) (getF cfields "$lt"))
        | some "$lte" => .ok (jsLeBU (get row k) (getF cfields "$lte"))
        | some "$exists" =>
          .ok (if (get row k).isSome then optTruthy (getF cfields "$exists")
               else !(optTruthy (getF cfields "$exists")))
        | _ => .ok false
      | _ => .ok false
    | _ => .ok false
  | _ => .ok false

/-- Per-row evaluation of a whole `$or` clause: sub-clauses in order, first
match wins, a sub-clause fault aborts the row. -/
def orRowEval (get : ρ → String → Option Val) (arr : List Val) (row : ρ) :
    Except EvalErr Bool :=
  match arr with
  | [] => .ok false
  | sub :: rest => do
    let b ← orSubEval get row sub
    if b then pure true else orRowEval get rest row

/-- Effectful filter: keeps the rows whose test returns `true`, aborting at
the first row whose test faults — the shape of every row loop that can
throw. -/
def mfilter (p : ρ → Except EvalErr Bool) : List ρ → Except EvalErr (List ρ)
  | [] => .ok []
  | r :: rs => do
    let b ← p r
    let rest ← mfilter p rs
    pure (if b then r :: rest else rest)

/-- `matching_rows_OR` (mongolite.js lines 810–886). -/
def matching_rows_OR (get : ρ → String → Option Val) (arr : List Val)
    (rows : List ρ) : Except EvalErr (List ρ) :=
  mfilter (orRowEval get arr) rows

/-- Evaluate one top-level clause, as dispatched by `do_query` (mongolite.js
lines 904–921): `NORMAL` and `OR` filter; `CONDITIONAL` runs the operator
loop, leaving the clause value empty; every other kind passes the rows
through.  Returns the narrowed rows together with the clause value as the
caller's query object holds it afterwards. -/
def evalClause (get : ρ → String → Option Val) (key : String) (v : Val)
    (rows : List ρ) : Except EvalErr (List ρ × Val) :=
  match detect_clause_type key v with
  | .NORMAL => .ok (matching_rows_NORMAL get key v rows, v)
  | .CONDITIONAL =>
    match v with
    | .vObj cfields => (applyCONDITIONAL get key cfields rows).map (fun r => (r, .vObj []))
    | _ => .ok (rows, v)
  | .OR =>
    match v with
    | .vArr arr => (matching_rows_OR get arr rows).map (fun r => (r, v))
    | _ => .ok (rows, v)
  | _ => .ok (rows, v)

/-- The clause loop of `do_query` (mongolite.js lines 898–922): sequential
narrowing, each clause filtering the previous clause's result.  Also returns
the query's clause list as left behind in the caller's object (conditional
clause values are consumed down to `{}`). -/
def do_query_clauses (get : ρ → String → Option Val) :
    List (String × Val) → List ρ → Except EvalErr (List ρ × List (String × Val))
  | [], rows => .ok (rows, [])
  | (k, v) :: rest, rows => do
    let rv ← evalClause get k v rows
    let rr ← do_query_clauses get rest rv.1
    pure (rr.1, (k, rv.2) :: rr.2)

/-- `do_query(clauses)` (mongolite.js lines 888–925). `none` models a falsy
`clauses` argument (`undefined`/`null`); an empty object returns the whole
collection unfiltered. -/
def do_query (get : ρ → String → Option Val) (clauses : Option Query)
    (master : List ρ) : Except EvalErr (List ρ × Query) :=
  match clauses with
  | none => .ok (master, [])
  | some cl =>
    if firstKey cl = none then .ok (master, cl)
    else do_query_clauses get cl master

/-- Per-row evaluation of one top-level clause: the row survives the clause
iff this returns `ok true`.  `CONDITIONAL` is the conjunction of all its
operators (faulting like the operator loop when an empty-string key would
make it spin); unsupported kinds pass every row. -/
def rowEval (get : ρ → String → Option Val) (key : String) (v : Val) (row : ρ) :
    Except EvalErr Bool :=
  match detect_clause_type key v with
  | .NORMAL => .ok (normalRowMatch get key v row)
  | .CONDITIONAL =>
    match v with
    | .vObj cfields =>
      if cfields.any (fun kv => kv.1 == "") then .error .nonTermination
      else .ok (cfields.all (fun kv => condRowMatch get key kv.1 kv.2 row))
    | _ => .ok true
  | .OR =>
    match v with
    | .vArr arr => orRowEval get arr row
    | _ => .ok true
  | _ => .ok true

/-- `ok true` as a boolean. -/
def isOkTrue (e : Except EvalErr Bool) : Bool :=
  match e with
  | .ok true => true
  | _ => false

/-- A row survives every clause of the query. -/
def rowMatchesAll (get : ρ → String → Option Val) (q : Query) (row : ρ) : Bool :=
  q.all (fun kv => isOkTrue (rowEval get kv.1 kv.2 row))

/-- The clause value as `do_query` leaves it in the caller's query object:
conditional clause values are consumed to `{}`, all others are untouched. -/
def mutClause (key : String) (v : Val) : Val :=
  match detect_clause_type key v with
  | .CONDITIONAL => .vObj []
  | _ => v

end Engine

/-! ## Characterisation of the matchers as per-row filters -/

section EngineLemmas

variable {ρ : Type} {get : ρ → String → Option Val}

theorem mfilter_cons (p : ρ → Except EvalErr Bool) (r : ρ) (rs : List ρ) :
    mfilter p (r :: rs) =
      (p r).bind (fun b => (mfilter p rs).bind
        (fun rest => .ok (if b then r :: rest else rest))) := rfl

/-- If an effectful filter succeeds, every row's test succeeded and the result
is the plain filter by `ok true`. -/
theorem mfilter_ok_char {p : ρ → Except EvalErr Bool} {rows res : List ρ}
    (h : mfilter p rows = .ok res) :
    (∀ r ∈ rows, ∃ b, p r = .ok b) ∧
      res = rows.filter (fun r => isOkTrue (p r)) := by
  induction rows generalizing res with
  | nil =>
    simp only [mfilter] at h
    cases h
    exact ⟨by simp, by simp⟩
  | cons r rs ih =>
    rw [mfilter_cons] at h
    cases hp : p r with
    | error e => rw [hp] at h; exact absurd h (by simp [Except.bind])
    | ok b =>
      rw [hp] at h
      cases hm : mfilter p rs with
      | error e => rw [hm] at h; exact absurd h (by simp [Except.bind])
      | ok rest =>
        rw [hm] at h
        simp only [Except.bind, Except.ok.injEq] at h
        obtain ⟨hall, hrest⟩ := ih hm
        refine ⟨?_, ?_⟩
        · intro x hx
          rcases List.mem_cons.mp hx with rfl | hx
          · exact ⟨b, hp⟩
          · exact hall x hx
        · cases b with
          | true => simp [← h, List.filter_cons, hp, isOkTrue, hrest]
          | false => simp [← h, List.filter_cons, hp, isOkTrue, hrest]

/-- If every row's test succeeds, the effectful filter succeeds and equals the
plain filter by `ok true`. -/
theorem mfilter_ok_of {p : ρ → Except EvalErr Bool} {rows : List ρ}
    (h : ∀ r ∈ rows, ∃ b, p r = .ok b) :
    mfilter p rows = .ok (rows.filter (fun r => isOkTrue (p r))) := by
  induction rows with
  | nil => simp [mfilter]
  | cons r rs ih =>
    obtain ⟨b, hb⟩ := h r (by simp)
    rw [mfilter_cons, hb, ih (fun x hx => h x (by simp [hx]))]
    cases b with
    | true => simp [Except.bind, List.filter_cons, hb, isOkTrue]
    | false => simp [Except.bind, List.filter_cons, hb, isOkTrue]

/-- A successful conditional-operator loop means no empty-string operator key,
and the result is the filter by the conjunction of all operators. -/
theorem applyCONDITIONAL_ok_char {key : String} {cfields : List (String × Val)}
    {rows res : List ρ}
    (h : applyCONDITIONAL get key cfields rows = .ok res) :
    (∀ kv ∈ cfields, kv.1 ≠ "") ∧
      res = rows.filter
        (fun r => cfields.all (fun kv => condRowMatch get key kv.1 kv.2 r)) := by
  induction cfields generalizing rows res with
  | nil =>
    simp only [applyCONDITIONAL] at h
    cases h
    exact ⟨by simp, by simp⟩
  | cons kv rest ih =>
    obtain ⟨cond, operand⟩ := kv
    simp only [applyCONDITIONAL] at h
    by_cases hc : cond = ""
    · simp [hc] at h
    · rw [if_neg (by simpa using hc)] at h
      obtain ⟨hrest, hres⟩ := ih h
      refine ⟨?_, ?_⟩
      · intro x hx
        rcases List.mem_cons.mp hx with rfl | hx
        · exact hc
        · exact hrest x hx
      · rw [hres, List.filter_filter]
        refine List.filter_congr (fun r _ => ?_)
        simp [List.all_cons, Bool.and_comm]

/-- If no operator key is the empty string, the conditional-operator loop
succeeds with the filter by the conjunction of all operators. -/
theorem applyCONDITIONAL_ok_of {key : String} {cfields : List (String × Val)}
    (rows : List ρ) (h : ∀ kv ∈ cfields, kv.1 ≠ "") :
    applyCONDITIONAL get key cfields rows =
      .ok (rows.filter
        (fun r => cfields.all (fun kv => condRowMatch get key kv.1 kv.2 r))) := by
  induction cfields generalizing rows with
  | nil => simp [applyCONDITIONAL]
  | cons kv rest ih =>
    obtain ⟨cond, operand⟩ := kv
    have hc : cond ≠ "" := h (cond, operand) (by simp)
    simp only [applyCONDITIONAL]
    rw [if_neg (by simpa using hc), ih _ (fun x hx => h x (by simp [hx]))]
    rw [List.filter_filter]
    refine congrArg Except.ok (List.filter_congr (fun r _ => ?_))
    simp [List.all_cons, Bool.and_comm]

end EngineLemmas


section QueryCharacterisation

variable {ρ : Type} {get : ρ → String → Option Val}

/-- `CONDITIONAL` classification forces an object clause value. -/
theorem detect_conditional_obj {key : String} {v : Val}
    (h : detect_clause_type key v = .CONDITIONAL) : ∃ fs, v = .vObj fs := by
  cases v <;> simp_all [detect_clause_type] <;> split at h <;> simp_all

/-- `OR` classification forces an array clause value. -/
theorem detect_or_arr {key : String} {v : Val}
    (h : detect_clause_type key v = .OR) : ∃ l, v = .vArr l := by
  cases v <;> simp_all [detect_clause_type] <;> split at h <;> simp_all

theorem evalClause_normal_eq {key : String} {v : Val}
    (hd : detect_clause_type key v = .NORMAL) (rows : List ρ) :
    evalClause get key v rows = .ok (matching_rows_NORMAL get key v rows, v) := by
  unfold evalClause
  rw [hd]

theorem evalClause_conditional_eq {key : String} {cfields : List (String × Val)}
    (hd : detect_clause_type key (.vObj cfields) = .CONDITIONAL) (rows : List ρ) :
    evalClause get key (.vObj cfields) rows =
      (applyCONDITIONAL get key cfields rows).map (fun r => (r, Val.vObj [])) := by
  unfold evalClause
  rw [hd]

theorem evalClause_or_eq {key : String} {arr : List Val}
    (hd : detect_clause_type key (.vArr arr) = .OR) (rows : List ρ) :
    evalClause get key (.vArr arr) rows =
      (matching_rows_OR get arr rows).map (fun r => (r, Val.vArr arr)) := by
  unfold evalClause
  rw [hd]

theorem evalClause_passthrough_eq {key : String} {v : Val}
    (hd : detect_clause_type key v ≠ .NORMAL ∧ detect_clause_type key v ≠ .CONDITIONAL ∧
      detect_clause_type key v ≠ .OR) (rows : List ρ) :
    evalClause get key v rows = .ok (rows, v) := by
  obtain ⟨h1, h2, h3⟩ := hd
  unfold evalClause
  cases hd : detect_clause_type key v <;> simp_all

/-- The clause-level success condition: a conditional clause must have no
empty-string operator key (else the operator loop never terminates); an `$or`
clause must evaluate without fault on every row it scans; every other kind
always succeeds. -/
def clauseOk (get : ρ → String → Option Val) (key : String) (v : Val)
    (rows : List ρ) : Prop :=
  (detect_clause_type key v = .CONDITIONAL →
    ∀ cfields, v = .vObj cfields → ∀ kv ∈ cfields, kv.1 ≠ "") ∧
  (detect_clause_type key v = .OR →
    ∀ arr, v = .vArr arr → ∀ r ∈ rows, ∃ b, orRowEval get arr r = .ok b)

theorem clauseOk_mono {key : String} {v : Val} {rows rows' : List ρ}
    (hsub : ∀ r ∈ rows', r ∈ rows) (h : clauseOk get key v rows) :
    clauseOk get key v rows' :=
  ⟨h.1, fun hd arr hv r hr => h.2 hd arr hv r (hsub r hr)⟩

/-- Forward characterisation of one clause: on success the narrowed rows are
the filter by the per-row evaluation, and the clause value becomes
`mutClause`. -/
theorem evalClause_ok_char {key : String} {v : Val} {rows res : List ρ} {v' : Val}
    (h : evalClause get key v rows = .ok (res, v')) :
    clauseOk get key v rows ∧
      res = rows.filter (fun r => isOkTrue (rowEval get key v r)) ∧
      v' = mutClause key v := by
  cases hd : detect_clause_type key v with
  | NORMAL =>
    rw [evalClause_normal_eq hd] at h
    cases h
    refine ⟨⟨by simp [hd], by simp [hd]⟩, ?_, by simp [mutClause, hd]⟩
    unfold matching_rows_NORMAL
    refine List.filter_congr (fun r _ => ?_)
    simp only [rowEval, hd]
    cases normalRowMatch get key v r <;> simp [isOkTrue]
  | CONDITIONAL =>
    obtain ⟨cfields, rfl⟩ := detect_conditional_obj hd
    rw [evalClause_conditional_eq hd] at h
    cases hc : applyCONDITIONAL get key cfields rows with
    | error e => rw [hc] at h; exact absurd h (by simp [Except.map])
    | ok r0 =>
      rw [hc] at h
      simp only [Except.map, Except.ok.injEq, Prod.mk.injEq] at h
      obtain ⟨hres, hv⟩ := h
      obtain ⟨hkeys, hr0⟩ := applyCONDITIONAL_ok_char hc
      refine ⟨⟨?_, by simp [hd]⟩, ?_, by simp [mutClause, hd, ← hv]⟩
      · intro _ cf hcf
        cases hcf
        exact hkeys
      · rw [← hres, hr0]
        refine List.filter_congr (fun r _ => ?_)
        have hne : (cfields.any (fun kv => kv.1 == "")) = false := by
          simp only [List.any_eq_false]
          intro kv hkv
          simpa using hkeys kv hkv
        simp only [rowEval, hd, hne, Bool.false_eq_true, if_false]
        cases cfields.all (fun kv => condRowMatch get key kv.1 kv.2 r) <;> simp [isOkTrue]
  | OR =>
    obtain ⟨arr, rfl⟩ := detect_or_arr hd
    rw [evalClause_or_eq hd] at h
    cases hm : matching_rows_OR get arr rows with
    | error e => rw [hm] at h; exact absurd h (by simp [Except.map])
    | ok r0 =>
      rw [hm] at h
      simp only [Except.map, Except.ok.injEq, Prod.mk.injEq] at h
      obtain ⟨hres, hv⟩ := h
      obtain ⟨hall, hr0⟩ := mfilter_ok_char hm
      refine ⟨⟨by simp [hd], ?_⟩, ?_, by simp [mutClause, hd, ← hv]⟩
      · intro _ a ha
        cases ha
        exact hall
      · rw [← hres, hr0]
        exact List.filter_congr (fun r _ => by simp [rowEval, hd])
  | SUBDOCUMENT_MATCH =>
    rw [evalClause_passthrough_eq (by simp [hd])] at h
    cases h
    exact ⟨⟨by simp [hd], by simp [hd]⟩, by simp [rowEval, hd, isOkTrue],
      by simp [mutClause, hd]⟩
  | SUBDOCUMENT =>
    rw [evalClause_passthrough_eq (by simp [hd])] at h
    cases h
    exact ⟨⟨by simp [hd], by simp [hd]⟩, by simp [rowEval, hd, isOkTrue],
      by simp [mutClause, hd]⟩
  | ARRAY =>
    rw [evalClause_passthrough_eq (by simp [hd])] at h
    cases h
    exact ⟨⟨by simp [hd], by simp [hd]⟩, by simp [rowEval, hd, isOkTrue],
      by simp [mutClause, hd]⟩
  | UNKNOWN =>
    rw [evalClause_passthrough_eq (by simp [hd])] at h
    cases h
    exact ⟨⟨by simp [hd], by simp [hd]⟩, by simp [rowEval, hd, isOkTrue],
      by simp [mutClause, hd]⟩

/-- Backward characterisation: a clause that satisfies its success condition
evaluates without fault to the per-row filter. -/
theorem evalClause_ok_of {key : String} {v : Val} {rows : List ρ}
    (h : clauseOk get key v rows) :
    evalClause get key v rows =
      .ok (rows.filter (fun r => isOkTrue (rowEval get key v r)), mutClause key v) := by
  cases hd : detect_clause_type key v with
  | NORMAL =>
    rw [evalClause_normal_eq hd]
    simp only [mutClause, hd]
    refine congrArg Except.ok (Prod.ext ?_ rfl)
    unfold matching_rows_NORMAL
    refine List.filter_congr (fun r _ => ?_)
    simp only [rowEval, hd]
    cases normalRowMatch get key v r <;> simp [isOkTrue]
  | CONDITIONAL =>
    obtain ⟨cfields, rfl⟩ := detect_conditional_obj hd
    have hkeys : ∀ kv ∈ cfields, kv.1 ≠ "" := h.1 hd cfields rfl
    rw [evalClause_conditional_eq hd, applyCONDITIONAL_ok_of rows hkeys]
    simp only [Except.map, mutClause, hd]
    refine congrArg Except.ok (Prod.ext ?_ rfl)
    refine List.filter_congr (fun r _ => ?_)
    have hne : (cfields.any (fun kv => kv.1 == "")) = false := by
      simp only [List.any_eq_false]
      intro kv hkv
      simpa using hkeys kv hkv
    simp only [rowEval, hd, hne, Bool.false_eq_true, if_false]
    cases cfields.all (fun kv => condRowMatch get key kv.1 kv.2 r) <;> simp [isOkTrue]
  | OR =>
    obtain ⟨arr, rfl⟩ := detect_or_arr hd
    have hall : ∀ r ∈ rows, ∃ b, orRowEval get arr r = .ok b := h.2 hd arr rfl
    rw [evalClause_or_eq hd]
    unfold matching_rows_OR
    rw [mfilter_ok_of hall]
    simp only [Except.map, mutClause, hd]
    refine congrArg Except.ok (Prod.ext ?_ rfl)
    exact List.filter_congr (fun r _ => by simp [rowEval, hd])
  | SUBDOCUMENT_MATCH =>
    rw [evalClause_passthrough_eq (by simp [hd])]
    simp [mutClause, hd, rowEval, isOkTrue]
  | SUBDOCUMENT =>
    rw [evalClause_passthrough_eq (by simp [hd])]
    simp [mutClause, hd, rowEval, isOkTrue]
  | ARRAY =>
    rw [evalClause_passthrough_eq (by simp [hd])]
    simp [mutClause, hd, rowEval, isOkTrue]
  | UNKNOWN =>
    rw [evalClause_passthrough_eq (by simp [hd])]
    simp [mutClause, hd, rowEval, isOkTrue]

end QueryCharacterisation

section SequentialNarrowing

variable {ρ : Type} {get : ρ → String → Option Val}

/-- The query as `do_query` leaves it in the caller's object: every
conditional clause value consumed to `{}`. -/
def mutQuery (q : Query) : Query :=
  q.map (fun kv => (kv.1, mutClause kv.1 kv.2))

theorem do_query_clauses_cons (k : String) (v : Val) (rest : Query)
    (rows : List ρ) :
    do_query_clauses get ((k, v) :: rest) rows =
      (evalClause get k v rows).bind (fun rv =>
        (do_query_clauses get rest rv.1).bind (fun rr =>
          .ok (rr.1, (k, rv.2) :: rr.2))) := rfl

/-- Forward characterisation of sequential narrowing: on success the result is
the plain filter of the input rows by "matches every clause", and the query is
left mutated clause-wise. -/
theorem do_query_clauses_ok_char {q : Query} {rows res : List ρ} {q' : Query}
    (h : do_query_clauses get q rows = .ok (res, q')) :
    res = rows.filter (rowMatchesAll get q) ∧ q' = mutQuery q := by
  induction q generalizing rows res q' with
  | nil =>
    simp only [do_query_clauses] at h
    cases h
    refine ⟨?_, by simp [mutQuery]⟩
    have hall : rowMatchesAll get ([] : Query) = fun _ : ρ => true := by
      funext r
      simp [rowMatchesAll]
    rw [hall, List.filter_true]
  | cons kv rest ih =>
    obtain ⟨k, v⟩ := kv
    rw [do_query_clauses_cons] at h
    cases hc : evalClause get k v rows with
    | error e => rw [hc] at h; exact absurd h (by simp [Except.bind])
    | ok rv =>
      rw [hc] at h
      simp only [Except.bind] at h
      cases hr : do_query_clauses get rest rv.1 with
      | error e => rw [hr] at h; exact absurd h (by simp [Except.bind])
      | ok rr =>
        rw [hr] at h
        simp only [Except.bind, Except.ok.injEq, Prod.mk.injEq] at h
        obtain ⟨hres, hq'⟩ := h
        obtain ⟨hok1, hrv1, hrv2⟩ := evalClause_ok_char (by rw [hc])
        obtain ⟨hres2, hq2⟩ := ih (by rw [hr])
        constructor
        · rw [← hres, hres2, hrv1, List.filter_filter]
          refine List.filter_congr (fun r _ => ?_)
          simp [rowMatchesAll, List.all_cons, Bool.and_comm]
        · rw [← hq', hq2, hrv2]
          simp [mutQuery]

/-- Backward characterisation: if every clause satisfies its success condition
against the full input row list, sequential narrowing succeeds with the
"matches every clause" filter. -/
theorem do_query_clauses_ok_of {q : Query} {rows : List ρ}
    (h : ∀ kv ∈ q, clauseOk get kv.1 kv.2 rows) :
    do_query_clauses get q rows =
      .ok (rows.filter (rowMatchesAll get q), mutQuery q) := by
  induction q generalizing rows with
  | nil =>
    simp only [do_query_clauses, mutQuery, List.map_nil]
    have hall : rowMatchesAll get ([] : Query) = fun _ : ρ => true := by
      funext r
      simp [rowMatchesAll]
    rw [hall, List.filter_true]
  | cons kv rest ih =>
    obtain ⟨k, v⟩ := kv
    rw [do_query_clauses_cons]
    rw [evalClause_ok_of (h (k, v) (by simp))]
    simp only [Except.bind]
    have hsub : ∀ r ∈ rows.filter (fun r => isOkTrue (rowEval get k v r)), r ∈ rows :=
      fun r hr => (List.mem_filter.mp hr).1
    rw [ih (fun kv' hkv' => clauseOk_mono hsub (h kv' (by simp [hkv'])))]
    simp only [Except.bind, Except.ok.injEq, Prod.mk.injEq, List.filter_filter]
    constructor
    · refine List.filter_congr (fun r _ => ?_)
      simp [rowMatchesAll, List.all_cons, Bool.and_comm]
    · simp [mutQuery]

/-- Rows surviving a successful sequential narrowing come from the input. -/
theorem do_query_clauses_subset {q : Query} {rows res : List ρ} {q' : Query}
    (h : do_query_clauses get q rows = .ok (res, q')) :
    ∀ r ∈ res, r ∈ rows := by
  obtain ⟨hres, -⟩ := do_query_clauses_ok_char h
  exact fun r hr => (List.mem_filter.mp (hres ▸ hr)).1

end SequentialNarrowing

/-! ## Claim C9: faults on legal query shapes -/

/-- C9 (code divergence): `find`/`update`/`remove` all evaluate their query
through `do_query`; on the collection `[{_id:1}]` the legal query
`{$or:[{x:/…/}]}` makes `matching_rows_OR` call `.match` on
`row["x"] === undefined`, a thrown `TypeError` — not a no-op return value.
(The top-level `NORMAL` regex matcher guards the same access with
`hasOwnProperty` and string coercion, so only the `$or` path throws.) -/
theorem c9_or_regex_throws :
    do_query getF
      (some [("$or", Val.vArr [Val.vObj [("x", Val.vRegex (fun _ => true))]])])
      [[("_id", Val.vNum 1)]] = .error .typeError := rfl

/-! ## Claim C6: termination of the CONDITIONAL operator loop -/

/-- The conditional while-loop halts within some finite fuel. -/
def condLoopTerminates {ρ : Type} (get : ρ → String → Option Val) (key : String)
    (cval : List (String × Val)) (rows : List ρ) : Prop :=
  ∃ fuel res, condLoopFuel get key fuel cval rows = some res

section CondLoop

variable {ρ : Type} {get : ρ → String → Option Val}

/-- Once the head operator key is the empty string, the loop is stuck: the
guard `if (cond)` skips the delete, so no fuel suffices. -/
theorem condLoopFuel_empty_key_none (key : String) (operand : Val)
    (rest : List (String × Val)) :
    ∀ (fuel : Nat) (rows : List ρ),
      condLoopFuel get key fuel (("", operand) :: rest) rows = none := by
  intro fuel
  induction fuel with
  | zero => intro rows; rfl
  | succ n ih =>
    intro rows
    simp only [condLoopFuel, matching_rows_CONDITIONAL_pass]
    rw [if_pos (by rfl)]
    exact ih _

/-- C6, counterexample: the clause value `{$gt: 1, "": 2}` classifies as
`CONDITIONAL` (its first key is `$gt`), yet the operator loop never
terminates on it — the second pass meets the empty-string key, whose
deletion is skipped because `if (cond)` is false for `""`. -/
theorem c6_counterexample :
    ¬ condLoopTerminates getF "x" [("$gt", Val.vNum 1), ("", Val.vNum 2)]
        [[("x", Val.vNum 5)]] := by
  rintro ⟨fuel, res, h⟩
  cases fuel with
  | zero => exact absurd h (by simp [condLoopFuel])
  | succ n =>
    rw [condLoopFuel, matching_rows_CONDITIONAL_pass] at h
    rw [if_neg (by simp)] at h
    rw [condLoopFuel_empty_key_none] at h
    exact absurd h (by simp)

/-- C6, amended: when no operator key is the empty string, the loop
terminates after exactly one pass per operator key, consuming the keys in
insertion order (each exactly once), leaving the clause value empty, and
producing the narrowing that the structural operator loop produces. -/
theorem c6_amended (key : String) (cval : List (String × Val)) (rows : List ρ)
    (h : ∀ kv ∈ cval, kv.1 ≠ "") :
    ∃ res, applyCONDITIONAL get key cval rows = .ok res ∧
      condLoopFuel get key cval.length cval rows = some res ∧
      condLoopSteps get key cval.length cval rows = (res, [], cval.map Prod.fst) := by
  induction cval generalizing rows with
  | nil => exact ⟨rows, rfl, rfl, rfl⟩
  | cons kv rest ih =>
    obtain ⟨cond, operand⟩ := kv
    have hc : cond ≠ "" := h (cond, operand) (by simp)
    have hcb : (cond == "") = false := by simpa using hc
    obtain ⟨res, h1, h2, h3⟩ :=
      ih (rows.filter (condRowMatch get key cond operand))
        (fun x hx => h x (by simp [hx]))
    refine ⟨res, ?_, ?_, ?_⟩
    · simp only [applyCONDITIONAL, hcb, Bool.false_eq_true, if_false]
      exact h1
    · simp only [List.length_cons, condLoopFuel, matching_rows_CONDITIONAL_pass, hcb,
        Bool.false_eq_true, if_false]
      exact h2
    · simp only [List.length_cons, condLoopSteps, matching_rows_CONDITIONAL_pass, hcb,
        Bool.false_eq_true, if_false, List.map_cons]
      rw [h3]

end CondLoop

/-- C6 amended, witness at a concrete clause value `{$gt: 2, $lt: 10}`
against one row. -/
theorem c6_amended_witness :
    ∃ res, applyCONDITIONAL getF "x" [("$gt", Val.vNum 2), ("$lt", Val.vNum 10)]
        [[("x", Val.vNum 5)]] = .ok res ∧
      condLoopFuel getF "x" 2 [("$gt", Val.vNum 2), ("$lt", Val.vNum 10)]
        [[("x", Val.vNum 5)]] = some res ∧
      condLoopSteps getF "x" 2 [("$gt", Val.vNum 2), ("$lt", Val.vNum 10)]
        [[("x", Val.vNum 5)]] = (res, [], ["$gt", "$lt"]) :=
  c6_amended "x" [("$gt", Val.vNum 2), ("$lt", Val.vNum 10)] [[("x", Val.vNum 5)]]
    (by decide)

/-! ## Claim C1: sequential narrowing computes the clause intersection -/

section AndNarrowing

variable {ρ : Type} {get : ρ → String → Option Val}

theorem do_query_some_cons (kv : String × Val) (rest : Query) (master : List ρ) :
    do_query get (some (kv :: rest)) master = do_query_clauses get (kv :: rest) master := by
  simp [do_query, firstKey]

/-- Membership in a successful full-query result, spelled per clause. -/
theorem mem_do_query_clauses_iff {q : Query} {master res : List ρ} {q' : Query}
    (h : do_query_clauses get q master = .ok (res, q')) (d : ρ) :
    d ∈ res ↔ d ∈ master ∧ ∀ kv ∈ q, isOkTrue (rowEval get kv.1 kv.2 d) = true := by
  obtain ⟨hres, -⟩ := do_query_clauses_ok_char h
  subst hres
  rw [List.mem_filter]
  unfold rowMatchesAll
  rw [List.all_eq_true]

/-- C1: for every collection and every query with two or more top-level
clauses of `NORMAL`/`CONDITIONAL`/`OR` kind, each of which evaluates without
fault against the full collection, sequential narrowing succeeds and returns
exactly the documents lying in every clause's independent result — and any
permutation of the top-level clauses yields the same set of documents. -/
theorem c1_and_narrowing_intersection (master : List Doc) (q : Query)
    (hlen : 2 ≤ q.length)
    (hkinds : ∀ kv ∈ q, detect_clause_type kv.1 kv.2 = .NORMAL ∨
      detect_clause_type kv.1 kv.2 = .CONDITIONAL ∨
      detect_clause_type kv.1 kv.2 = .OR)
    (hok : ∀ kv ∈ q, ∃ r v', evalClause getF kv.1 kv.2 master = .ok (r, v')) :
    ∃ res q', do_query getF (some q) master = .ok (res, q') ∧
      (∀ d, d ∈ res ↔
        ∀ kv ∈ q, ∀ r v', evalClause getF kv.1 kv.2 master = .ok (r, v') → d ∈ r) ∧
      (∀ q₂, q₂.Perm q →
        ∃ res₂ q₂', do_query getF (some q₂) master = .ok (res₂, q₂') ∧
          ∀ d, d ∈ res₂ ↔ d ∈ res) := by
  have hco : ∀ kv ∈ q, clauseOk getF kv.1 kv.2 master := by
    intro kv hkv
    obtain ⟨r, v', he⟩ := hok kv hkv
    exact (evalClause_ok_char he).1
  have hq := do_query_clauses_ok_of hco
  obtain ⟨kv0, rest, rfl⟩ : ∃ kv0 rest, q = kv0 :: rest := by
    cases q with
    | nil => simp at hlen
    | cons a b => exact ⟨a, b, rfl⟩
  rw [← do_query_some_cons] at hq
  refine ⟨_, _, hq, ?_, ?_⟩
  · intro d
    rw [do_query_some_cons] at hq
    rw [mem_do_query_clauses_iff hq]
    constructor
    · rintro ⟨hd, hall⟩ kv hkv r v' he
      obtain ⟨-, hr, -⟩ := evalClause_ok_char he
      rw [hr, List.mem_filter]
      exact ⟨hd, hall kv hkv⟩
    · intro hall
      obtain ⟨r0, v0, h0⟩ := hok kv0 (by simp)
      have hd : d ∈ master := by
        have hdr := hall kv0 (by simp) r0 v0 h0
        obtain ⟨-, hr, -⟩ := evalClause_ok_char h0
        rw [hr, List.mem_filter] at hdr
        exact hdr.1
      refine ⟨hd, fun kv hkv => ?_⟩
      obtain ⟨r, v', he⟩ := hok kv hkv
      have hdr := hall kv hkv r v' he
      obtain ⟨-, hr, -⟩ := evalClause_ok_char he
      rw [hr, List.mem_filter] at hdr
      exact hdr.2
  · intro q₂ hperm
    have hco₂ : ∀ kv ∈ q₂, clauseOk getF kv.1 kv.2 master :=
      fun kv hkv => hco kv (hperm.subset hkv)
    have hq₂ := do_query_clauses_ok_of hco₂
    obtain ⟨kw0, rest₂, rfl⟩ : ∃ kw0 rest₂, q₂ = kw0 :: rest₂ := by
      cases q₂ with
      | nil =>
        exfalso
        have h0 := hperm.length_eq
        simp only [List.length_nil] at h0
        omega
      | cons a b => exact ⟨a, b, rfl⟩
    rw [← do_query_some_cons] at hq₂
    refine ⟨_, _, hq₂, ?_⟩
    intro d
    rw [do_query_some_cons] at hq hq₂
    rw [mem_do_query_clauses_iff hq₂, mem_do_query_clauses_iff hq]
    constructor
    · rintro ⟨hd, hall⟩
      exact ⟨hd, fun kv hkv => hall kv (hperm.mem_iff.mpr hkv)⟩
    · rintro ⟨hd, hall⟩
      exact ⟨hd, fun kv hkv => hall kv (hperm.mem_iff.mp hkv)⟩

end AndNarrowing

/-- The collection used by several witnesses. -/
def wMaster : List Doc :=
  [[("a", Val.vNum 1), ("b", Val.vNum 1)], [("a", Val.vNum 1)], [("b", Val.vNum 1)]]

/-- C1, witness: the two-clause query `{a:1, b:1}` against a three-document
collection. -/
theorem c1_witness :
    ∃ res q', do_query getF (some [("a", Val.vNum 1), ("b", Val.vNum 1)]) wMaster =
        .ok (res, q') ∧
      (∀ d, d ∈ res ↔
        ∀ kv ∈ [("a", Val.vNum 1), ("b", Val.vNum 1)], ∀ r v',
          evalClause getF kv.1 kv.2 wMaster = .ok (r, v') → d ∈ r) ∧
      (∀ q₂, q₂.Perm [("a", Val.vNum 1), ("b", Val.vNum 1)] →
        ∃ res₂ q₂', do_query getF (some q₂) wMaster = .ok (res₂, q₂') ∧
          ∀ d, d ∈ res₂ ↔ d ∈ res) :=
  c1_and_narrowing_intersection wMaster [("a", Val.vNum 1), ("b", Val.vNum 1)]
    (by decide) (by decide)
    (by
      intro kv hkv
      simp only [List.mem_cons, List.not_mem_nil, or_false] at hkv
      rcases hkv with rfl | rfl
      · exact ⟨_, _, rfl⟩
      · exact ⟨_, _, rfl⟩)

/-! ## Claim C10: conditional clauses are consumed from the caller's query -/

section QueryMutation

variable {ρ : Type} {get : ρ → String → Option Val}

/-- A row matching a query also matches the left-behind (mutated) query:
consumed conditional clauses have become `{}`, which passes every row. -/
theorem rowMatchesAll_mutQuery {q : Query} {d : ρ}
    (h : rowMatchesAll get q d = true) : rowMatchesAll get (mutQuery q) d = true := by
  unfold rowMatchesAll at h ⊢
  rw [List.all_eq_true] at h ⊢
  intro kv hkv
  unfold mutQuery at hkv
  rw [List.mem_map] at hkv
  obtain ⟨kw, hkw, rfl⟩ := hkv
  have hkwm := h kw hkw
  unfold mutClause
  cases hd : detect_clause_type kw.1 kw.2 with
  | CONDITIONAL => simp [rowEval, detect_clause_type, firstKey, isOkTrue]
  | NORMAL => exact hkwm
  | SUBDOCUMENT_MATCH => exact hkwm
  | SUBDOCUMENT => exact hkwm
  | OR => exact hkwm
  | ARRAY => exact hkwm
  | UNKNOWN => exact hkwm

end QueryMutation

/-- C10: a `find`/`update`/`remove` call evaluates its query object
destructively.  If a top-level clause `(k, v)` of `q` classifies as
`CONDITIONAL`, then after one successful `do_query` the caller's query holds
`(k, {})` in its place, `{}` classifies as `SUBDOCUMENT` (pass-through), and a
second evaluation that reuses the mutated query object returns a superset of
the first result — the whole collection, when every clause of `q` was
conditional. -/
theorem c10_conditional_clause_consumed (master : List Doc) (q : Query)
    (k : String) (v : Val) (res res₂ : List Doc) (q' q'' : Query)
    (hmem : (k, v) ∈ q) (hcond : detect_clause_type k v = .CONDITIONAL)
    (h1 : do_query getF (some q) master = .ok (res, q'))
    (h2 : do_query getF (some q') master = .ok (res₂, q'')) :
    (k, Val.vObj []) ∈ q' ∧
      detect_clause_type k (Val.vObj []) = .SUBDOCUMENT ∧
      (∀ d ∈ res, d ∈ res₂) ∧
      ((∀ kv ∈ q, detect_clause_type kv.1 kv.2 = .CONDITIONAL) → res₂ = master) := by
  obtain ⟨kv0, rest, rfl⟩ : ∃ kv0 rest, q = kv0 :: rest := by
    cases q with
    | nil => cases hmem
    | cons a b => exact ⟨a, b, rfl⟩
  rw [do_query_some_cons] at h1
  obtain ⟨hres, hq'⟩ := do_query_clauses_ok_char h1
  have hq'mem : (k, Val.vObj []) ∈ q' := by
    rw [hq']
    unfold mutQuery
    rw [List.mem_map]
    exact ⟨(k, v), hmem, by simp [mutClause, hcond]⟩
  have hsub : detect_clause_type k (Val.vObj []) = .SUBDOCUMENT := by
    simp [detect_clause_type, firstKey]
  have hq'ne : ∃ kw0 rest₂, q' = kw0 :: rest₂ := by
    cases hq'' : q' with
    | nil => rw [hq''] at hq'mem; cases hq'mem
    | cons a b => exact ⟨a, b, rfl⟩
  obtain ⟨kw0, rest₂, hq'eq⟩ := hq'ne
  rw [hq'eq, do_query_some_cons, ← hq'eq] at h2
  obtain ⟨hres₂, -⟩ := do_query_clauses_ok_char h2
  refine ⟨hq'mem, hsub, ?_, ?_⟩
  · intro d hd
    rw [hres] at hd
    rw [List.mem_filter] at hd
    rw [hres₂, hq', List.mem_filter]
    exact ⟨hd.1, rowMatchesAll_mutQuery hd.2⟩
  · intro hallcond
    rw [hres₂, hq']
    have hall : ∀ d ∈ master, rowMatchesAll getF (mutQuery (kv0 :: rest)) d = true := by
      intro d _
      unfold rowMatchesAll
      rw [List.all_eq_true]
      intro kv hkv
      unfold mutQuery at hkv
      rw [List.mem_map] at hkv
      obtain ⟨kw, hkw, rfl⟩ := hkv
      have : mutClause kw.1 kw.2 = Val.vObj [] := by
        simp [mutClause, hallcond kw hkw]
      rw [this]
      simp [rowEval, detect_clause_type, firstKey, isOkTrue]
    calc List.filter (rowMatchesAll getF (mutQuery (kv0 :: rest))) master
        = List.filter (fun _ => true) master := List.filter_congr (fun d hd => hall d hd)
      _ = master := List.filter_true master

/-- C10, witness: `{a:{$gt:2}}` against a two-document collection; the first
call narrows to one document and leaves `{a:{}}` behind, the second call
passes everything through. -/
theorem c10_witness :
    ((("a" : String), Val.vObj []) ∈ ([(("a" : String), Val.vObj [])] : Query)) ∧
      detect_clause_type "a" (Val.vObj []) = .SUBDOCUMENT ∧
      (∀ d ∈ [[(("a" : String), Val.vNum 5)]], d ∈
        ([[(("a" : String), Val.vNum 1)], [(("a" : String), Val.vNum 5)]] : List Doc)) ∧
      ((∀ kv ∈ [(("a" : String), Val.vObj [("$gt", Val.vNum 2)])],
          detect_clause_type kv.1 kv.2 = .CONDITIONAL) →
        ([[(("a" : String), Val.vNum 1)], [(("a" : String), Val.vNum 5)]] : List Doc) =
          [[(("a" : String), Val.vNum 1)], [(("a" : String), Val.vNum 5)]]) :=
  c10_conditional_clause_consumed
    [[("a", Val.vNum 1)], [("a", Val.vNum 5)]]
    [("a", Val.vObj [("$gt", Val.vNum 2)])]
    "a" (Val.vObj [("$gt", Val.vNum 2)])
    [[("a", Val.vNum 5)]]
    [[("a", Val.vNum 1)], [("a", Val.vNum 5)]]
    [("a", Val.vObj [])] [("a", Val.vObj [])]
    (by simp) (by decide) rfl rfl

/-! ## Claim C3: `$or` as a union of its sub-clauses -/

section OrUnion

variable {ρ : Type} {get : ρ → String → Option Val}

theorem orRowEval_cons (sub : Val) (rest : List Val) (row : ρ) :
    orRowEval get (sub :: rest) row =
      (orSubEval get row sub).bind
        (fun b => if b then .ok true else orRowEval get rest row) := rfl

/-- Evaluating `$or` over one or two sub-clauses whose per-row tests succeed. -/
theorem orRowEval_pair_ok {r : ρ} {A B : Val} {bA bB : Bool}
    (hA : orSubEval get r A = .ok bA) (hB : orSubEval get r B = .ok bB) :
    orRowEval get [A, B] r = .ok (bA || bB) ∧
      orRowEval get [A] r = .ok bA ∧ orRowEval get [B] r = .ok bB := by
  refine ⟨?_, ?_, ?_⟩
  · rw [orRowEval_cons, hA]
    cases bA with
    | true => simp [Except.bind]
    | false =>
      simp only [Except.bind, Bool.false_eq_true, if_false, Bool.false_or]
      rw [orRowEval_cons, hB]
      cases bB with
      | true => simp [Except.bind]
      | false => simp [Except.bind, orRowEval]
  · rw [orRowEval_cons, hA]
    cases bA with
    | true => simp [Except.bind]
    | false => simp [Except.bind, orRowEval]
  · rw [orRowEval_cons, hB]
    cases bB with
    | true => simp [Except.bind]
    | false => simp [Except.bind, orRowEval]

end OrUnion

/-- The property claim C3 asserts of a collection and two single-field
sub-clauses `A` and `B`: whenever the `$or` query and the two *top-level*
evaluations of `A` and `B` (the "same NORMAL or CONDITIONAL semantics that
top-level clauses use") all succeed, the `$or` result is their membership
union. -/
def OrEqualsTopLevelUnion (master : List Doc) (A B : Query) : Prop :=
  ∀ resOr resA resB qo qa qb,
    do_query getF (some [("$or", Val.vArr [Val.vObj A, Val.vObj B])]) master =
      .ok (resOr, qo) →
    do_query getF (some A) master = .ok (resA, qa) →
    do_query getF (some B) master = .ok (resB, qb) →
    ∀ d, d ∈ resOr ↔ (d ∈ resA ∨ d ∈ resB)

/-- C3, counterexample: on the collection `[{x:0}]`, with `A = {x:{$exists:
true}}` and `B = {y:1}`, the query `{$or:[A,B]}` returns the document, yet
neither `A` nor `B` matches it top-level: the `$or` matcher tests `$exists`
by *presence* (`row[key] !== undefined`) while the top-level `CONDITIONAL`
matcher tests JS *truthiness*, and `0` is falsy. -/
theorem c3_counterexample :
    ¬ OrEqualsTopLevelUnion [[("x", Val.vNum 0)]]
        [("x", Val.vObj [("$exists", Val.vBool true)])] [("y", Val.vNum 1)] := by
  intro h
  have hd := h [[("x", Val.vNum 0)]] [] [] _ _ _ rfl rfl rfl [("x", Val.vNum 0)]
  simp at hd

/-- C3, amended: `evaluate({$or:[A,B]})` is the member-wise union of
`evaluate({$or:[A]})` and `evaluate({$or:[B]})` — the sub-clauses are matched
with the `$or` matcher's own semantics, under which `$exists` tests field
*presence* rather than the truthiness test used by top-level clauses, and a
regex sub-clause faults unless the field holds a string.  Each stored
document contributes at most one entry to the result (first matching
sub-clause wins), and the result is a sublist of the collection. -/
theorem c3_amended_or_union (master : List Doc) (A B : Query)
    (hA : ∀ r ∈ master, ∃ b, orSubEval getF r (Val.vObj A) = .ok b)
    (hB : ∀ r ∈ master, ∃ b, orSubEval getF r (Val.vObj B) = .ok b) :
    ∃ resAB resA resB q1 q2 q3,
      do_query getF (some [("$or", Val.vArr [Val.vObj A, Val.vObj B])]) master =
        .ok (resAB, q1) ∧
      do_query getF (some [("$or", Val.vArr [Val.vObj A])]) master = .ok (resA, q2) ∧
      do_query getF (some [("$or", Val.vArr [Val.vObj B])]) master = .ok (resB, q3) ∧
      resAB.Sublist master ∧
      (∀ d, d ∈ resAB ↔ (d ∈ resA ∨ d ∈ resB)) := by
  have mkco : ∀ (arr : List Val),
      (∀ r ∈ master, ∃ b, orRowEval getF arr r = .ok b) →
      ∀ kv ∈ [(("$or" : String), Val.vArr arr)], clauseOk getF kv.1 kv.2 master := by
    intro arr harr kv hkv
    simp only [List.mem_cons, List.not_mem_nil, or_false] at hkv
    subst hkv
    constructor
    · intro hc
      exact absurd hc (by simp [detect_clause_type])
    · intro _ arr' harr' r hr
      injection harr' with h'
      subst h'
      exact harr r hr
  have hAB : ∀ r ∈ master, ∃ b, orRowEval getF [Val.vObj A, Val.vObj B] r = .ok b := by
    intro r hr
    obtain ⟨bA, hbA⟩ := hA r hr
    obtain ⟨bB, hbB⟩ := hB r hr
    exact ⟨bA || bB, (orRowEval_pair_ok hbA hbB).1⟩
  have hA1 : ∀ r ∈ master, ∃ b, orRowEval getF [Val.vObj A] r = .ok b := by
    intro r hr
    obtain ⟨bA, hbA⟩ := hA r hr
    obtain ⟨bB, hbB⟩ := hB r hr
    exact ⟨bA, (orRowEval_pair_ok hbA hbB).2.1⟩
  have hB1 : ∀ r ∈ master, ∃ b, orRowEval getF [Val.vObj B] r = .ok b := by
    intro r hr
    obtain ⟨bA, hbA⟩ := hA r hr
    obtain ⟨bB, hbB⟩ := hB r hr
    exact ⟨bB, (orRowEval_pair_ok hbA hbB).2.2⟩
  have hqAB := do_query_clauses_ok_of (mkco _ hAB)
  have hqA := do_query_clauses_ok_of (mkco _ hA1)
  have hqB := do_query_clauses_ok_of (mkco _ hB1)
  rw [← do_query_some_cons] at hqAB hqA hqB
  refine ⟨_, _, _, _, _, _, hqAB, hqA, hqB, List.filter_sublist master, ?_⟩
  intro d
  rw [do_query_some_cons] at hqAB hqA hqB
  rw [mem_do_query_clauses_iff hqAB, mem_do_query_clauses_iff hqA,
    mem_do_query_clauses_iff hqB]
  constructor
  · rintro ⟨hd, hall⟩
    obtain ⟨bA, hbA⟩ := hA d hd
    obtain ⟨bB, hbB⟩ := hB d hd
    obtain ⟨e1, e2, e3⟩ := orRowEval_pair_ok hbA hbB
    have ht := hall (("$or" : String), Val.vArr [Val.vObj A, Val.vObj B]) (by simp)
    simp only [rowEval, detect_clause_type, e1] at ht
    cases bA with
    | true =>
      refine Or.inl ⟨hd, ?_⟩
      intro kv hkv
      simp only [List.mem_cons, List.not_mem_nil, or_false] at hkv
      subst hkv
      simp [rowEval, detect_clause_type, e2, isOkTrue]
    | false =>
      cases bB with
      | true =>
        refine Or.inr ⟨hd, ?_⟩
        intro kv hkv
        simp only [List.mem_cons, List.not_mem_nil, or_false] at hkv
        subst hkv
        simp [rowEval, detect_clause_type, e3, isOkTrue]
      | false => simp [isOkTrue] at ht
  · intro hor
    obtain ⟨hd, -⟩ : d ∈ master ∧ True := by
      rcases hor with ⟨hd, -⟩ | ⟨hd, -⟩ <;> exact ⟨hd, trivial⟩
    obtain ⟨bA, hbA⟩ := hA d hd
    obtain ⟨bB, hbB⟩ := hB d hd
    obtain ⟨e1, e2, e3⟩ := orRowEval_pair_ok hbA hbB
    refine ⟨hd, ?_⟩
    intro kv hkv
    simp only [List.mem_cons, List.not_mem_nil, or_false] at hkv
    subst hkv
    simp only [rowEval, detect_clause_type, e1]
    rcases hor with ⟨-, hallA⟩ | ⟨-, hallB⟩
    · have := hallA (("$or" : String), Val.vArr [Val.vObj A]) (by simp)
      simp only [rowEval, detect_clause_type, e2] at this
      cases bA with
      | true => simp [isOkTrue]
      | false => simp [isOkTrue] at this
    · have := hallB (("$or" : String), Val.vArr [Val.vObj B]) (by simp)
      simp only [rowEval, detect_clause_type, e3] at this
      cases bB with
      | true => simp [isOkTrue]
      | false => simp [isOkTrue] at this

/-- C3 amended, witness: `A = {a:1}`, `B = {b:2}` over a two-document
collection. -/
theorem c3_amended_witness :
    ∃ resAB resA resB q1 q2 q3,
      do_query getF (some [("$or",
          Val.vArr [Val.vObj [("a", Val.vNum 1)], Val.vObj [("b", Val.vNum 2)]])])
        [[("a", Val.vNum 1)], [("b", Val.vNum 2)]] = .ok (resAB, q1) ∧
      do_query getF (some [("$or", Val.vArr [Val.vObj [("a", Val.vNum 1)]])])
        [[("a", Val.vNum 1)], [("b", Val.vNum 2)]] = .ok (resA, q2) ∧
      do_query getF (some [("$or", Val.vArr [Val.vObj [("b", Val.vNum 2)]])])
        [[("a", Val.vNum 1)], [("b", Val.vNum 2)]] = .ok (resB, q3) ∧
      resAB.Sublist [[("a", Val.vNum 1)], [("b", Val.vNum 2)]] ∧
      (∀ d, d ∈ resAB ↔ (d ∈ resA ∨ d ∈ resB)) :=
  c3_amended_or_union [[("a", Val.vNum 1)], [("b", Val.vNum 2)]]
    [("a", Val.vNum 1)] [("b", Val.vNum 2)]
    (by
      intro r hr
      simp only [List.mem_cons, List.not_mem_nil, or_false] at hr
      rcases hr with rfl | rfl
      · exact ⟨true, rfl⟩
      · exact ⟨false, rfl⟩)
    (by
      intro r hr
      simp only [List.mem_cons, List.not_mem_nil, or_false] at hr
      rcases hr with rfl | rfl
      · exact ⟨false, rfl⟩
      · exact ⟨true, rfl⟩)

/-! ## The result cursor: `db_result.sort` and `db_result.limit` -/

/-- A model of `String.prototype.localeCompare` by code-point order (the
claims under study depend only on its sign, never on locale rules). -/
def localeCmp (x y : String) : Int :=
  if strLt x y then -1 else if strLt y x then 1 else 0

/-- The comparator of `db_result.sort` (mongolite.js lines 238–248): a
*falsy* field value (`!a[key]` — absent, `0`, `""`, `false`…) on either side
short-circuits to `-val` resp. `val`; two strings use `localeCompare * val`;
otherwise `a[key] > b[key] ? val : -val`. -/
def cmpDocs (key : String) (dir : Int) (a b : Doc) : Int :=
  if !(optTruthy (getF a key)) then -dir
  else if !(optTruthy (getF b key)) then dir
  else
    match getF a key, getF b key with
    | some (.vStr x), some (.vStr y) => localeCmp x y * dir
    | av, bv => if jsGtBU av bv then dir else -dir

/-- Insertion into a sorted list: place `x` before the first element it
compares `≤ 0` against. -/
def insertSorted {α : Type} (le : α → α → Bool) (x : α) : List α → List α
  | [] => [x]
  | y :: ys => if le x y then x :: y :: ys else y :: insertSorted le x ys

/-- A model of `Array.prototype.sort` with the given comparator: insertion
sort by `cmp · · ≤ 0`.  (The engine's sort is some comparison sort; the
claims depend only on how the comparator separates falsy-field documents
from truthy-field ones, which any comparison sort realises the same way.) -/
def sortWithCmp {α : Type} (cmp : α → α → Int) (l : List α) : List α :=
  l.foldr (insertSorted (fun a b => decide (cmp a b ≤ 0))) []

/-- `db_result.sort({key: dir})`. -/
def dbresult_sort (key : String) (dir : Int) (data : List Doc) : List Doc :=
  sortWithCmp (cmpDocs key dir) data

/-- `ToIntegerOrInfinity` restricted to the Int model: `NaN` becomes `0`. -/
def jsToInteger : Option Int → Int
  | none => 0
  | some n => n

/-- The elements retained by `Array.prototype.splice(start, deleteCount)`:
negative `start` counts from the end, both arguments clamp to the array. -/
def spliceRemove {α : Type} (data : List α) (start dc : Int) : List α :=
  let len : Int := data.length
  let s : Nat := (if start < 0 then max (len + start) 0 else min start len).toNat
  let d : Nat := (min (max dc 0) (len - (s : Int))).toNat
  data.take s ++ data.drop (s + d)

/-- `db_result.limit(_l)` (mongolite.js lines 253–260): `lim = Number(_l)`
always has `typeof` "number" (`NaN` included), so the `type_of` guard never
returns early, and every call reaches
`this._data.splice(lim, this._data.length - lim)`. -/
def dbresult_limit {α : Type} (n : Val) (data : List α) : List α :=
  let lim := toNumber n
  spliceRemove data (jsToInteger lim)
    (jsToInteger (lim.map (fun l => (data.length : Int) - l)))

/-! ## Claim C5: placement of missing-field documents under sort -/

/-- Claim C5's asserted property for ascending sort: every document having
the field precedes every document missing it — equivalently, a document
*missing* the field never precedes one having it. -/
def MissingAfterHaving (key : String) (l : List Doc) : Prop :=
  ∀ (i j : Fin l.length),
    (getF (l.get i) key).isSome → (getF (l.get j) key).isNone → i < j

/-- C5, counterexample: sorting `[{x:1}, {}]` ascending by `x` yields
`[{}, {x:1}]` — the comparator returns `-val` whenever the *left* document's
field is falsy, so missing-field documents sort to the *front* for
`direction = +1`, the opposite of the claimed placement. -/
theorem c5_counterexample :
    ¬ MissingAfterHaving "x" (dbresult_sort "x" 1 [[("x", Val.vNum 1)], []]) := by
  intro h
  have h10 := h ⟨1, by decide⟩ ⟨0, by decide⟩ (by decide) (by decide)
  exact absurd h10 (by decide)

section SortSeparation

variable {α : Type}

/-- Elements of an insertion come from the inserted element or the list. -/
theorem mem_insertSorted {le : α → α → Bool} {x d : α} {l : List α}
    (h : d ∈ insertSorted le x l) : d = x ∨ d ∈ l := by
  induction l with
  | nil => simpa [insertSorted] using h
  | cons y ys ih =>
    unfold insertSorted at h
    by_cases hle : le x y = true
    · rw [if_pos hle] at h
      rcases List.mem_cons.mp h with rfl | h2
      · exact Or.inl rfl
      · exact Or.inr h2
    · rw [if_neg hle] at h
      rcases List.mem_cons.mp h with rfl | h2
      · exact Or.inr (by simp)
      · rcases ih h2 with rfl | h3
        · exact Or.inl rfl
        · exact Or.inr (by simp [h3])

/-- Inserting a `p`-element into a `p`-block–first list keeps the blocks
separated, provided `p`-elements compare `le` against non-`p` ones and never
the other way. -/
theorem insertSorted_sep_true {le : α → α → Bool} {p : α → Bool} {x : α}
    (hA : ∀ b, p b = false → le x b = true) (hx : p x = true) :
    ∀ l₁ l₂, (∀ d ∈ l₁, p d = true) → (∀ d ∈ l₂, p d = false) →
      ∃ m₁ m₂, insertSorted le x (l₁ ++ l₂) = m₁ ++ m₂ ∧
        (∀ d ∈ m₁, p d = true) ∧ (∀ d ∈ m₂, p d = false) := by
  intro l₁
  induction l₁ with
  | nil =>
    intro l₂ h₁ h₂
    cases l₂ with
    | nil => exact ⟨[x], [], by simp [insertSorted], by simpa using hx, by simp⟩
    | cons y ys =>
      have hle : le x y = true := hA y (h₂ y (by simp))
      refine ⟨[x], y :: ys, by simp [insertSorted, hle], ?_, h₂⟩
      intro d hd
      rw [List.mem_singleton] at hd
      subst hd
      exact hx
  | cons y t ih =>
    intro l₂ h₁ h₂
    cases hle : le x y with
    | true =>
      refine ⟨x :: y :: t, l₂, by simp [insertSorted, hle], ?_, h₂⟩
      intro d hd
      rcases List.mem_cons.mp hd with rfl | hd2
      · exact hx
      · exact h₁ d hd2
    | false =>
      obtain ⟨m₁, m₂, heq, hm₁, hm₂⟩ :=
        ih l₂ (fun d hd => h₁ d (by simp [hd])) h₂
      refine ⟨y :: m₁, m₂, ?_, ?_, hm₂⟩
      · simp only [List.cons_append, insertSorted, hle, Bool.false_eq_true, if_false]
        exact congrArg (fun z => y :: z) heq
      · intro d hd
        rcases List.mem_cons.mp hd with rfl | hd2
        · exact h₁ d (by simp)
        · exact hm₁ d hd2

/-- Inserting a non-`p` element skips the whole `p`-block and lands in the
non-`p` block. -/
theorem insertSorted_sep_false {le : α → α → Bool} {p : α → Bool} {x : α}
    (hB : ∀ b, p b = true → le x b = false) (hx : p x = false) :
    ∀ l₁ l₂, (∀ d ∈ l₁, p d = true) → (∀ d ∈ l₂, p d = false) →
      ∃ m₁ m₂, insertSorted le x (l₁ ++ l₂) = m₁ ++ m₂ ∧
        (∀ d ∈ m₁, p d = true) ∧ (∀ d ∈ m₂, p d = false) := by
  intro l₁
  induction l₁ with
  | nil =>
    intro l₂ h₁ h₂
    refine ⟨[], insertSorted le x l₂, by simp, by simp, ?_⟩
    intro d hd
    rcases mem_insertSorted hd with rfl | hd2
    · exact hx
    · exact h₂ d hd2
  | cons y t ih =>
    intro l₂ h₁ h₂
    have hle : le x y = false := hB y (h₁ y (by simp))
    obtain ⟨m₁, m₂, heq, hm₁, hm₂⟩ :=
      ih l₂ (fun d hd => h₁ d (by simp [hd])) h₂
    refine ⟨y :: m₁, m₂, ?_, ?_, hm₂⟩
    · simp only [List.cons_append, insertSorted, hle, Bool.false_eq_true, if_false]
      exact congrArg (fun z => y :: z) heq
    · intro d hd
      rcases List.mem_cons.mp hd with rfl | hd2
      · exact h₁ d (by simp)
      · exact hm₁ d hd2

/-- Any insertion sort whose comparator puts `p`-elements `le` every non-`p`
element (and never conversely) separates the output into the `p`-block
followed by the non-`p` block. -/
theorem sortWithCmp_sep (cmp : α → α → Int) (p : α → Bool)
    (hA : ∀ a b, p a = true → p b = false → decide (cmp a b ≤ 0) = true)
    (hB : ∀ a b, p a = false → p b = true → decide (cmp a b ≤ 0) = false) :
    ∀ l : List α, ∃ m₁ m₂, sortWithCmp cmp l = m₁ ++ m₂ ∧
      (∀ d ∈ m₁, p d = true) ∧ (∀ d ∈ m₂, p d = false) := by
  intro l
  induction l with
  | nil => exact ⟨[], [], rfl, by simp, by simp⟩
  | cons x t ih =>
    obtain ⟨m₁, m₂, heq, hm₁, hm₂⟩ := ih
    have hstep : sortWithCmp cmp (x :: t) =
        insertSorted (fun a b => decide (cmp a b ≤ 0)) x (m₁ ++ m₂) := by
      unfold sortWithCmp at heq ⊢
      rw [List.foldr_cons, heq]
    cases hx : p x with
    | true =>
      obtain ⟨n₁, n₂, hneq, hn₁, hn₂⟩ :=
        @insertSorted_sep_true α (fun a b => decide (cmp a b ≤ 0)) p x
          (fun b hb => hA x b hx hb) hx m₁ m₂ hm₁ hm₂
      exact ⟨n₁, n₂, by rw [hstep, hneq], hn₁, hn₂⟩
    | false =>
      obtain ⟨n₁, n₂, hneq, hn₁, hn₂⟩ :=
        @insertSorted_sep_false α (fun a b => decide (cmp a b ≤ 0)) p x
          (fun b hb => hB x b hx hb) hx m₁ m₂ hm₁ hm₂
      exact ⟨n₁, n₂, by rw [hstep, hneq], hn₁, hn₂⟩

end SortSeparation

/-- The comparator short-circuits on a falsy left field value. -/
theorem cmpDocs_falsy_left {key : String} (dir : Int) {a : Doc} (b : Doc)
    (ha : optTruthy (getF a key) = false) : cmpDocs key dir a b = -dir := by
  simp [cmpDocs, ha]

/-- With a truthy left and falsy right field value the comparator returns
`dir`. -/
theorem cmpDocs_truthy_falsy {key : String} (dir : Int) {a b : Doc}
    (ha : optTruthy (getF a key) = true) (hb : optTruthy (getF b key) = false) :
    cmpDocs key dir a b = dir := by
  simp [cmpDocs, ha, hb]

/-- C5, amended: for every cursor data list and field, ascending sort
(`direction = +1`) places every document whose field is missing-or-falsy
*before* every document with a truthy field value, and descending sort
(`direction = -1`) places them *after* — the opposite of the claimed
placement, and with "missing" actually meaning "falsy" (`!a[key]`). -/
theorem c5_amended_missing_first_ascending (key : String) (data : List Doc) :
    (∃ m₁ m₂, dbresult_sort key 1 data = m₁ ++ m₂ ∧
      (∀ d ∈ m₁, optTruthy (getF d key) = false) ∧
      (∀ d ∈ m₂, optTruthy (getF d key) = true)) ∧
    (∃ m₁ m₂, dbresult_sort key (-1) data = m₁ ++ m₂ ∧
      (∀ d ∈ m₁, optTruthy (getF d key) = true) ∧
      (∀ d ∈ m₂, optTruthy (getF d key) = false)) := by
  constructor
  · have h := sortWithCmp_sep (cmpDocs key 1) (fun d => !(optTruthy (getF d key)))
      (fun a b ha hb => by
        have haf : optTruthy (getF a key) = false := by simpa using ha
        rw [cmpDocs_falsy_left 1 b haf]
        decide)
      (fun a b ha hb => by
        have hat : optTruthy (getF a key) = true := by simpa using ha
        have hbf : optTruthy (getF b key) = false := by simpa using hb
        rw [cmpDocs_truthy_falsy 1 hat hbf]
        decide)
      data
    obtain ⟨m₁, m₂, heq, hm₁, hm₂⟩ := h
    refine ⟨m₁, m₂, heq, fun d hd => by simpa using hm₁ d hd,
      fun d hd => by simpa using hm₂ d hd⟩
  · have h := sortWithCmp_sep (cmpDocs key (-1)) (fun d => optTruthy (getF d key))
      (fun a b ha hb => by
        rw [cmpDocs_truthy_falsy (-1) ha hb]
        decide)
      (fun a b ha hb => by
        rw [cmpDocs_falsy_left (-1) b ha]
        decide)
      data
    obtain ⟨m₁, m₂, heq, hm₁, hm₂⟩ := h
    exact ⟨m₁, m₂, heq, fun d hd => hm₁ d hd, fun d hd => hm₂ d hd⟩

/-! ## Claim C8: `limit` with a bad argument -/

/-- A fixed two-document cursor content. -/
def twoDocs : List Doc := [[("a", Val.vNum 1)], [("a", Val.vNum 2)]]

/-- C8, counterexample: `limit(-1)` is *not* a no-op — `-1` does not coerce
to a non-negative integer, yet `splice(-1, length+1)` removes the last
element, changing both the held sequence and the count. -/
theorem c8_counterexample :
    (dbresult_limit (Val.vNum (-1)) twoDocs).length ≠ twoDocs.length ∧
      dbresult_limit (Val.vNum (-1)) twoDocs = [[("a", Val.vNum 1)]] :=
  ⟨by decide, rfl⟩

/-- C8, amended: `limit(n)` is a no-op exactly when `Number(n)` is `NaN`
(e.g. a non-numeric string) — `splice(NaN, NaN)` coerces both arguments to
`0`.  A *negative* integer argument `k` is not a no-op: it truncates the
cursor to its first `length + k` elements (dropping the last `|k|`,
clamped). -/
theorem c8_amended_limit {α : Type} (data : List α) (n : Val) :
    (toNumber n = none → dbresult_limit n data = data) ∧
      (∀ k : Int, k < 0 →
        dbresult_limit (Val.vNum k) data =
          data.take (((data.length : Int) + k).toNat)) := by
  constructor
  · intro hn
    unfold dbresult_limit spliceRemove
    rw [hn]
    simp only [Option.map_none', jsToInteger]
    have hs : (if (0 : Int) < 0 then
        max ((data.length : Int) + 0) 0 else min 0 (data.length : Int)).toNat = 0 := by
      rw [if_neg (by omega)]
      omega
    rw [hs]
    have hd : (min (max (0 : Int) 0) ((data.length : Int) - ((0 : Nat) : Int))).toNat = 0 := by
      omega
    rw [hd]
    simp
  · intro k hk
    unfold dbresult_limit spliceRemove
    simp only [toNumber, Option.map_some', jsToInteger]
    have hs : (if k < 0 then max ((data.length : Int) + k) 0
        else min k (data.length : Int)).toNat = ((data.length : Int) + k).toNat := by
      rw [if_pos hk]
      omega
    rw [hs]
    have hd : (((data.length : Int) + k).toNat : Int) = max ((data.length : Int) + k) 0 := by
      omega
    have hsum : ((data.length : Int) + k).toNat +
        (min (max ((data.length : Int) - k) 0)
          ((data.length : Int) - (((data.length : Int) + k).toNat : Int))).toNat =
        data.length := by
      omega
    rw [hsum]
    rw [List.drop_length]
    simp

/-- C8 amended, witness: `limit("abc")` leaves a two-document cursor
unchanged, and `limit(-1)` truncates it to its first element. -/
theorem c8_amended_witness :
    dbresult_limit (Val.vStr "abc") twoDocs = twoDocs ∧
      dbresult_limit (Val.vNum (-1)) twoDocs =
        twoDocs.take (((twoDocs.length : Int) + (-1)).toNat) :=
  ⟨(c8_amended_limit twoDocs (Val.vStr "abc")).1 rfl,
   (c8_amended_limit twoDocs (Val.vStr "abc")).2 (-1) (by decide)⟩

/-- C5 amended, witness at a concrete cursor. -/
theorem c5_amended_witness :
    (∃ m₁ m₂, dbresult_sort "x" 1 [[("x", Val.vNum 1)], []] = m₁ ++ m₂ ∧
      (∀ d ∈ m₁, optTruthy (getF d "x") = false) ∧
      (∀ d ∈ m₂, optTruthy (getF d "x") = true)) ∧
    (∃ m₁ m₂, dbresult_sort "x" (-1) [[("x", Val.vNum 1)], []] = m₁ ++ m₂ ∧
      (∀ d ∈ m₁, optTruthy (getF d "x") = true) ∧
      (∀ d ∈ m₂, optTruthy (getF d "x") = false)) :=
  c5_amended_missing_first_ascending "x" [[("x", Val.vNum 1)], []]

/-! ## The mutation pipeline: `insert`, `update`, `remove`

The collection is a list of documents plus the monotonic id counter
(`this.master`, `this._id`).  The mutation path queries with row type
`ρ := Nat` — indices into `master` — because `do_query` hands `update` live
*references* into the collection; an index is the pure-model handle. -/

/-- The collection state: `this.master` and `this._id`. -/
structure DBState where
  master : List Doc
  counter : Int

/-- `addToFront(obj, key, value)` (mongolite.js lines 145–170): an *empty*
object is returned unchanged; otherwise a new object is built with the new
binding first and every existing binding re-assigned after it — so if `obj`
already had the key, the assignment `newObj[key] = obj[key]` *overwrites the
new value* while keeping the front position. -/
def addToFront (obj : Doc) (k : String) (v : Val) : Doc :=
  if obj.isEmpty then obj
  else obj.foldl (fun acc kv => jsSet acc kv.1 kv.2) [(k, v)]

/-- `insert_one(obj)` (mongolite.js lines 482–496): a falsy `obj["_id"]`
triggers `addToFront(obj, '_id', ++that._id)`; the document is appended and
its (possibly caller-supplied, possibly still absent) `_id` reported. -/
def insert_one (s : DBState) (obj : Doc) : DBState × Option Val :=
  let p :=
    if optTruthy (getF obj "_id") then (obj, s.counter)
    else (addToFront obj "_id" (.vNum (s.counter + 1)), s.counter + 1)
  (⟨s.master ++ [p.1], p.2⟩, getF p.1 "_id")

/-- `insert(Arg)` (mongolite.js lines 477–509) over a list of documents: the
last `insert_one` result is reported.  (Named `db_insert` because a bare
`insert` is ambiguous with the `Insert` type class.) -/
def db_insert (s : DBState) (args : List Doc) : DBState × Option Val :=
  args.foldl (fun acc obj => let r := insert_one acc.1 obj; (r.1, r.2)) (s, none)

/-- Field access on a row handle (an index into the collection). -/
def idxGet (master : List Doc) (i : Nat) (k : String) : Option Val :=
  match master.get? i with
  | some d => getF d k
  | none => none

/-- `do_query` over row handles: the indices of the matched rows. -/
def queryIndices (master : List Doc) (q : Option Query) :
    Except EvalErr (List Nat) :=
  (do_query (idxGet master) q (List.range master.length)).map (fun r => r.1)

/-- One field of `$set` applied to a row (mongolite.js lines 560–568): the
field is (re)written — and counted as a change — iff it was absent/falsy or
held a different value. -/
def fieldChanged (row : Doc) (k : String) (v : Val) : Bool :=
  match getF row k with
  | none => true
  | some w => !jsTruthy w || !jsStrictEq w v

/-- The `$set` loop over one matched row: returns the updated row and the
`did_change` flag. -/
def applySetRow (row : Doc) (set : Doc) : Doc × Bool :=
  set.foldl
    (fun acc kv =>
      if fieldChanged acc.1 kv.1 kv.2 then (jsSet acc.1 kv.1 kv.2, true) else acc)
    (row, false)

/-- `update(query, update, options)` (mongolite.js lines 521–577), modelled
for an object `query`, an update spec whose `$set` is an object, and an
options object (`multi`/`upsert` read by truthiness).  Returns the new state
and the number of rows altered; a query fault propagates. -/
def update (s : DBState) (q : Query) (upd : Doc) (options : Doc) :
    Except EvalErr (DBState × Int) :=
  match getF upd "$set" with
  | some (.vObj setF) => do
    let res ← queryIndices s.master (some q)
    let do_multi := optTruthy (getF options "multi")
    let do_upsert := optTruthy (getF options "upsert")
    if res.length == 0 && do_upsert then
      pure ((db_insert s [setF]).1, 1)
    else
      let targets := if do_multi then res else res.take 1
      let st := targets.foldl
        (fun (acc : List Doc × Int) i =>
          match acc.1.get? i with
          | some row =>
            let r := applySetRow row setF
            (acc.1.set i r.1, acc.2 + if r.2 then 1 else 0)
          | none => acc)
        (s.master, 0)
      pure (⟨st.1, s.counter⟩, st.2)
  | _ => .ok (s, 0)

/-- The truthy `_id` values of the matched rows (`rmids`, mongolite.js
lines 602–610; `if (!id) continue` skips falsy ids). -/
def removeIds (master : List Doc) (rows : List Nat) : List Val :=
  rows.filterMap (fun i =>
    match master.get? i with
    | some d =>
      match getF d "_id" with
      | some idv => if jsTruthy idv then some idv else none
      | none => none
    | none => none)

/-- The filter predicate of `remove`'s rebuild: keep a row unless it has a
truthy `_id` strictly equal to a collected id. -/
def removeKeep (rmids : List Val) (d : Doc) : Bool :=
  !(rmids.any (fun idv =>
    match getF d "_id" with
    | some w => jsTruthy w && jsStrictEq w idv
    | none => false))

/-- `remove(constraints)` (mongolite.js lines 588–630): collect the truthy
`_id`s of the matched rows, then rebuild `master` keeping the rows whose
`_id` is falsy or matches no collected id; the returned count is the number
excluded. -/
def remove (s : DBState) (q : Query) : Except EvalErr (DBState × Int) :=
  (queryIndices s.master (some q)).bind (fun rows =>
    if rows.length == 0 then .ok (s, 0)
    else if (removeIds s.master rows).length == 0 then .ok (s, 0)
    else
      .ok (⟨s.master.filter (removeKeep (removeIds s.master rows)), s.counter⟩,
        ((s.master.length -
          (s.master.filter (removeKeep (removeIds s.master rows))).length : Nat) : Int)))

/-! ## Claim C7: the row count returned by `update` with `multi` -/

/-- Setting a key makes it readable. -/
theorem getF_jsSet_same (d : Doc) (k : String) (v : Val) :
    getF (jsSet d k v) k = some v := by
  unfold jsSet getF
  split
  next h =>
    rw [List.find?_map]
    have hpf : ((fun kv : String × Val => kv.1 == k) ∘
        (fun kv => if kv.1 == k then ((k, v) : String × Val) else kv)) =
        (fun kv : String × Val => kv.1 == k) := by
      funext x
      by_cases hx : (x.1 == k) = true
      · simp [Function.comp, hx]
      · simp [Function.comp, hx]
    rw [hpf]
    obtain ⟨x, hx⟩ : ∃ x, d.find? (fun kv => kv.1 == k) = some x := by
      rw [← Option.isSome_iff_exists, List.find?_isSome]
      simpa using List.any_eq_true.mp h
    rw [hx]
    have px := List.find?_some hx
    simp only [Option.map_some']
    rw [if_pos px]
  next h =>
    rw [List.find?_append]
    have hfalse : d.any (fun kv => kv.1 == k) = false := by
      simp only [Bool.not_eq_true] at h
      exact h
    have hnone : d.find? (fun kv => kv.1 == k) = none := by
      rw [List.find?_eq_none]
      exact List.any_eq_false.mp hfalse
    rw [hnone]
    simp [List.find?_cons]

/-- Setting a key does not disturb the others. -/
theorem getF_jsSet_other (d : Doc) (k k' : String) (v : Val) (hne : k' ≠ k) :
    getF (jsSet d k v) k' = getF d k' := by
  unfold jsSet getF
  split
  next h =>
    rw [List.find?_map]
    have hpf : ((fun kv : String × Val => kv.1 == k') ∘
        (fun kv => if kv.1 == k then ((k, v) : String × Val) else kv)) =
        (fun kv : String × Val => kv.1 == k') := by
      funext x
      by_cases hx : (x.1 == k) = true
      · have hx' : x.1 = k := by simpa using hx
        simp [Function.comp, hx, hx']
      · simp [Function.comp, hx]
    rw [hpf]
    cases hx : d.find? (fun kv => kv.1 == k') with
    | none => simp
    | some x =>
      have px := List.find?_some hx
      have hxk : ¬ (x.1 == k) = true := by
        have hx' : x.1 = k' := by simpa using px
        simp [hx', hne]
      simp only [Option.map_some']
      rw [if_neg hxk]
  next h =>
    rw [List.find?_append]
    have htail : ([((k, v) : String × Val)].find? (fun kv => kv.1 == k')) = none := by
      simp [List.find?_cons, Ne.symm hne]
    rw [htail, Option.or_none]

/-- The sequential `$set` loop's `did_change` flag equals "some field of
`$set` was absent, falsy or different in the original row", provided the
`$set` keys are distinct (as JS object keys are). -/
theorem applySetRow_flag_aux (row : Doc) :
    ∀ (setF : Doc) (row₀ : Doc) (flag : Bool),
      (setF.map Prod.fst).Nodup →
      (∀ kv ∈ setF, getF row₀ kv.1 = getF row kv.1) →
      (setF.foldl
        (fun acc kv =>
          if fieldChanged acc.1 kv.1 kv.2 then (jsSet acc.1 kv.1 kv.2, true) else acc)
        (row₀, flag)).2
        = (flag || setF.any (fun kv => fieldChanged row kv.1 kv.2)) := by
  intro setF
  induction setF with
  | nil => intro row₀ flag _ _; simp
  | cons kv rest ih =>
    intro row₀ flag hnd hagree
    obtain ⟨k, v⟩ := kv
    rw [List.map_cons] at hnd
    have hndp := List.nodup_cons.mp hnd
    have hfc : fieldChanged row₀ k v = fieldChanged row k v := by
      unfold fieldChanged
      rw [hagree (k, v) (by simp)]
    rw [List.foldl_cons, List.any_cons]
    cases hch : fieldChanged row₀ k v with
    | true =>
      rw [if_pos (by simp [hch])]
      have hagree' : ∀ kv' ∈ rest, getF (jsSet row₀ k v) kv'.1 = getF row kv'.1 := by
        intro kv' hkv'
        have hne : kv'.1 ≠ k := by
          intro he
          apply hndp.1
          rw [← he]
          exact List.mem_map.mpr ⟨kv', hkv', rfl⟩
        rw [getF_jsSet_other row₀ k kv'.1 v hne]
        exact hagree kv' (by simp [hkv'])
      rw [ih (jsSet row₀ k v) true hndp.2 hagree']
      rw [← hfc, hch]
      simp
    | false =>
      rw [if_neg (by simp [hch])]
      rw [ih row₀ flag hndp.2 (fun kv' hkv' => hagree kv' (by simp [hkv']))]
      rw [← hfc, hch]
      simp

/-- `did_change` on a row, stated against the original row. -/
theorem applySetRow_flag (row setF : Doc) (hnd : (setF.map Prod.fst).Nodup) :
    (applySetRow row setF).2 = setF.any (fun kv => fieldChanged row kv.1 kv.2) := by
  unfold applySetRow
  simpa using applySetRow_flag_aux row setF row false hnd (fun _ _ => rfl)

/-- A matched row index counts toward the returned total iff some `$set`
field was absent, falsy or different in the stored document — the per-row
condition of claim C7. -/
def docChanged (master : List Doc) (setF : Doc) (i : Nat) : Bool :=
  match master.get? i with
  | some row => setF.any (fun kv => fieldChanged row kv.1 kv.2)
  | none => false

/-- The update fold over distinct row indices counts exactly the rows whose
stored document would change. -/
theorem update_fold_count (master : List Doc) (setF : Doc)
    (hnd0 : (setF.map Prod.fst).Nodup) :
    ∀ (targets : List Nat) (m₀ : List Doc) (c : Int),
      targets.Nodup →
      (∀ j ∈ targets, m₀.get? j = master.get? j) →
      (targets.foldl
        (fun (acc : List Doc × Int) i =>
          match acc.1.get? i with
          | some row =>
            let r := applySetRow row setF
            (acc.1.set i r.1, acc.2 + if r.2 then 1 else 0)
          | none => acc)
        (m₀, c)).2
        = c + (targets.countP (docChanged master setF) : Int) := by
  intro targets
  induction targets with
  | nil => intro m₀ c _ _; simp
  | cons t ts ih =>
    intro m₀ c hnd hagree
    have hm := hagree t (by simp)
    have hndp := List.nodup_cons.mp hnd
    rw [List.foldl_cons]
    cases hget : m₀.get? t with
    | none =>
      have hdc : docChanged master setF t = false := by
        unfold docChanged
        rw [← hm, hget]
      simp only [hget]
      rw [ih m₀ c hndp.2 (fun j hj => hagree j (by simp [hj]))]
      rw [List.countP_cons, hdc]
      simp
    | some row =>
      have hdc : docChanged master setF t = (applySetRow row setF).2 := by
        unfold docChanged
        rw [← hm, hget, applySetRow_flag row setF hnd0]
      have hagree' : ∀ j ∈ ts,
          (m₀.set t (applySetRow row setF).1).get? j = master.get? j := by
        intro j hj
        have hjt : t ≠ j := fun he => hndp.1 (he ▸ hj)
        rw [List.get?_eq_getElem?, List.getElem?_set_ne hjt, ← List.get?_eq_getElem?]
        exact hagree j (by simp [hj])
      simp only [hget]
      rw [ih (m₀.set t (applySetRow row setF).1)
        (c + if (applySetRow row setF).2 then 1 else 0) hndp.2 hagree']
      rw [List.countP_cons, hdc]
      cases h2 : (applySetRow row setF).2 with
      | true => push_cast; ring
      | false => push_cast; ring

theorem do_query_some_eq {ρ : Type} (get : ρ → String → Option Val) (cl : Query)
    (master : List ρ) :
    do_query get (some cl) master =
      if firstKey cl = none then .ok (master, cl)
      else do_query_clauses get cl master := rfl

/-- A successful index query yields distinct, in-range row handles. -/
theorem queryIndices_char {master : List Doc} {q : Query} {res : List Nat}
    (h : queryIndices master (some q) = .ok res) :
    res.Nodup ∧ ∀ i ∈ res, i < master.length := by
  unfold queryIndices at h
  rw [do_query_some_eq] at h
  by_cases hq : firstKey q = none
  · rw [if_pos hq] at h
    simp only [Except.map] at h
    cases h
    exact ⟨List.nodup_range _, fun i hi => List.mem_range.mp hi⟩
  · rw [if_neg hq] at h
    cases hqc : do_query_clauses (idxGet master) q (List.range master.length) with
    | error e => rw [hqc] at h; exact absurd h (by simp [Except.map])
    | ok r =>
      rw [hqc] at h
      simp only [Except.map] at h
      cases h
      obtain ⟨hres, -⟩ := do_query_clauses_ok_char hqc
      constructor
      · exact hres ▸ List.Nodup.filter _ (List.nodup_range _)
      · intro i hi
        rw [hres, List.mem_filter] at hi
        exact List.mem_range.mp hi.1

theorem update_set_eq (s : DBState) (q : Query) (setF : Doc) (options : Doc) :
    update s q [("$set", Val.vObj setF)] options =
      (queryIndices s.master (some q)).bind (fun res =>
        (if res.length == 0 && optTruthy (getF options "upsert") then
          .ok ((db_insert s [setF]).1, 1)
        else
          .ok (⟨((if optTruthy (getF options "multi") then res else res.take 1).foldl
              (fun (acc : List Doc × Int) i =>
                match acc.1.get? i with
                | some row =>
                  ((acc.1.set i (applySetRow row setF).1),
                    acc.2 + if (applySetRow row setF).2 then 1 else 0)
                | none => acc)
              ((s.master, 0) : List Doc × Int)).1, s.counter⟩,
            ((if optTruthy (getF options "multi") then res else res.take 1).foldl
              (fun (acc : List Doc × Int) i =>
                match acc.1.get? i with
                | some row =>
                  ((acc.1.set i (applySetRow row setF).1),
                    acc.2 + if (applySetRow row setF).2 then 1 else 0)
                | none => acc)
              ((s.master, 0) : List Doc × Int)).2) : Except EvalErr (DBState × Int))) := rfl

/-- C7: `update(q, {$set:m}, {multi:true})` returns exactly the number of
matched documents in which at least one field of `m` actually changed — a
field counting as changed iff it was absent or falsy in the document or held
a value different from `m`'s (`fieldChanged`).  Stated for distinct `$set`
keys (JS object keys are distinct) and a query evaluation that does not
fault. -/
theorem c7_update_multi_count (master : List Doc) (counter : Int) (q : Query)
    (setF : Doc) (res : List Nat)
    (hkeys : (setF.map Prod.fst).Nodup)
    (hres : queryIndices master (some q) = .ok res) :
    ∃ master', update ⟨master, counter⟩ q [("$set", Val.vObj setF)]
        [("multi", Val.vBool true)] =
      .ok (⟨master', counter⟩, (res.countP (docChanged master setF) : Int)) := by
  obtain ⟨hnd, hlt⟩ := queryIndices_char hres
  rw [update_set_eq, hres]
  simp only [Except.bind]
  have hup : optTruthy (getF [(("multi" : String), Val.vBool true)] "upsert") = false := rfl
  have hmul : optTruthy (getF [(("multi" : String), Val.vBool true)] "multi") = true := rfl
  rw [hup, hmul, Bool.and_false]
  simp only [Bool.false_eq_true, if_false, if_true]
  refine ⟨(res.foldl
      (fun (acc : List Doc × Int) i =>
        match acc.1.get? i with
        | some row =>
          (acc.1.set i (applySetRow row setF).1,
            acc.2 + if (applySetRow row setF).2 then 1 else 0)
        | none => acc)
      (master, 0)).1, ?_⟩
  refine congrArg Except.ok (Prod.ext rfl ?_)
  have := update_fold_count master setF hkeys res master 0 hnd (fun _ _ => rfl)
  simpa using this

/-- C7, witness: `$set = {x:2}` with `multi` against three documents matched
by the empty query: the rows holding `x:1` (different) and no `x` (absent)
change; the row already holding `x:2` does not — 2 rows altered. -/
theorem c7_witness :
    ∃ master', update ⟨[[("x", Val.vNum 1)], [("x", Val.vNum 2)], [("y", Val.vNum 3)]], 3⟩
        [] [("$set", Val.vObj [("x", Val.vNum 2)])] [("multi", Val.vBool true)] =
      .ok (⟨master', 3⟩,
        (([0, 1, 2] : List Nat).countP
          (docChanged [[("x", Val.vNum 1)], [("x", Val.vNum 2)], [("y", Val.vNum 3)]]
            [("x", Val.vNum 2)]) : Int)) :=
  c7_update_multi_count [[("x", Val.vNum 1)], [("x", Val.vNum 2)], [("y", Val.vNum 3)]]
    3 [] [("x", Val.vNum 2)] [0, 1, 2] (by decide) rfl

/-! ## Claim C4: the id counter invariant -/

/-- The numeric id a stored document carries: a truthy numeric `_id`.
(`_id: 0` is falsy and treated as absent throughout the source.) -/
def docId (d : Doc) : Option Int :=
  match getF d "_id" with
  | some (.vNum k) => if k == 0 then none else some k
  | _ => none

/-- The ids present in a collection. -/
def idsOf (m : List Doc) : List Int := m.filterMap docId

/-- The id invariant of a collection state: a non-negative counter, every
document carrying a numeric id in `[1, counter]`, and no id occurring
twice. -/
def IdInv (s : DBState) : Prop :=
  0 ≤ s.counter ∧
    (∀ d ∈ s.master, ∃ k : Int, docId d = some k ∧ 1 ≤ k ∧ k ≤ s.counter) ∧
    (idsOf s.master).Nodup

/-- The part of claim C4's invariant that the counterexample breaks: the
counter bounds every id present. -/
def CounterDominatesIds (s : DBState) : Prop :=
  ∀ d ∈ s.master, ∀ k : Int, docId d = some k → k ≤ s.counter

/-- A document that `insert` handles as the spec intends: nonempty (else
`addToFront` returns it unchanged and no `_id` is stored), distinct keys,
and no `_id` binding (a truthy one is kept verbatim; a falsy one resurfaces
through `addToFront`'s re-assignment loop and overwrites the fresh id). -/
def goodDoc (d : Doc) : Prop :=
  d ≠ [] ∧ getF d "_id" = none ∧ (d.map Prod.fst).Nodup

/-- Absent key means no binding. -/
theorem getF_eq_none_keys {d : Doc} {k : String} (h : getF d k = none) :
    ∀ kv ∈ d, kv.1 ≠ k := by
  intro kv hkv
  unfold getF at h
  rw [Option.map_eq_none', List.find?_eq_none] at h
  simpa using h kv hkv

/-- Folding `jsSet` over fields which are new to the accumulator (and
mutually distinct) appends them. -/
theorem foldl_jsSet_append :
    ∀ (fields : Doc) (base : Doc),
      (fields.map Prod.fst).Nodup →
      (∀ kv ∈ fields, base.any (fun kv' => kv'.1 == kv.1) = false) →
      fields.foldl (fun acc kv => jsSet acc kv.1 kv.2) base = base ++ fields := by
  intro fields
  induction fields with
  | nil => intro base _ _; simp
  | cons kv rest ih =>
    intro base hnd hnew
    obtain ⟨k, v⟩ := kv
    rw [List.map_cons] at hnd
    have hndp := List.nodup_cons.mp hnd
    rw [List.foldl_cons]
    have hset : jsSet base k v = base ++ [(k, v)] := by
      unfold jsSet
      rw [if_neg (by simp [hnew (k, v) (by simp)])]
    rw [hset]
    rw [ih (base ++ [(k, v)]) hndp.2 ?hnew']
    · simp
    case hnew' =>
      intro kv' hkv'
      rw [List.any_append]
      have h1 : base.any (fun kv'' => kv''.1 == kv'.1) = false :=
        hnew kv' (by simp [hkv'])
      have h2 : ([((k, v) : String × Val)].any (fun kv'' => kv''.1 == kv'.1)) = false := by
        have : kv'.1 ≠ k := by
          intro he
          exact hndp.1 (by rw [← he]; exact List.mem_map.mpr ⟨kv', hkv', rfl⟩)
        simp [Ne.symm this]
      rw [h1, h2]
      rfl

/-- `insert_one` on a well-formed id-less document: the fresh id goes in
front, the counter advances. -/
theorem insert_one_good (s : DBState) (d : Doc) (hd : goodDoc d) :
    insert_one s d =
      (⟨s.master ++ [("_id", Val.vNum (s.counter + 1)) :: d], s.counter + 1⟩,
        some (Val.vNum (s.counter + 1))) := by
  obtain ⟨hne, hid, hnd⟩ := hd
  have hfront : addToFront d "_id" (Val.vNum (s.counter + 1)) =
      ("_id", Val.vNum (s.counter + 1)) :: d := by
    unfold addToFront
    rw [if_neg (by simpa using hne)]
    rw [foldl_jsSet_append d [("_id", Val.vNum (s.counter + 1))] hnd ?hnew]
    · simp
    case hnew =>
      intro kv hkv
      simp [Ne.symm (getF_eq_none_keys hid kv hkv)]
  unfold insert_one
  rw [hid]
  simp only [optTruthy, Bool.false_eq_true, if_false, hfront]
  refine Prod.ext rfl ?_
  simp [getF, List.find?_cons]

/-- An id occurring in a collection is carried by one of its documents. -/
theorem mem_idsOf {m : List Doc} {k : Int} (h : k ∈ idsOf m) :
    ∃ d ∈ m, docId d = some k := by
  unfold idsOf at h
  obtain ⟨d, hd, hdk⟩ := List.mem_filterMap.mp h
  exact ⟨d, hd, hdk⟩

/-- One good insertion preserves the id invariant, strictly advances the
counter, and adds only a document with a strictly fresh id. -/
theorem insert_one_inv {s : DBState} {d : Doc} (hInv : IdInv s) (hd : goodDoc d) :
    IdInv (insert_one s d).1 ∧ s.counter < (insert_one s d).1.counter ∧
      ∀ x ∈ (insert_one s d).1.master, x ∈ s.master ∨
        ∃ k, docId x = some k ∧ s.counter < k ∧ k ≤ (insert_one s d).1.counter := by
  obtain ⟨hc, hids, hnd⟩ := hInv
  rw [insert_one_good s d hd]
  have hdocid : docId (("_id", Val.vNum (s.counter + 1)) :: d) = some (s.counter + 1) := by
    unfold docId
    have hg : getF (("_id", Val.vNum (s.counter + 1)) :: d) "_id" =
        some (Val.vNum (s.counter + 1)) := by
      simp [getF, List.find?_cons]
    rw [hg]
    show (if (s.counter + 1 == 0) = true then none else some (s.counter + 1)) =
      some (s.counter + 1)
    rw [if_neg (by simp; omega)]
  have hidsapp : idsOf (s.master ++ [("_id", Val.vNum (s.counter + 1)) :: d]) =
      idsOf s.master ++ [s.counter + 1] := by
    unfold idsOf
    rw [List.filterMap_append]
    simp [hdocid]
  refine ⟨⟨by simp; omega, ?_, ?_⟩, by simp, ?_⟩
  · intro x hx
    simp only [List.mem_append, List.mem_singleton] at hx
    rcases hx with hx | rfl
    · obtain ⟨k, hk, h1, h2⟩ := hids x hx
      exact ⟨k, hk, h1, by simp; omega⟩
    · exact ⟨s.counter + 1, hdocid, by omega, by simp⟩
  · show (idsOf (s.master ++ [("_id", Val.vNum (s.counter + 1)) :: d])).Nodup
    rw [hidsapp, List.nodup_append]
    refine ⟨hnd, List.nodup_singleton _, ?_⟩
    intro a ha hb
    rw [List.mem_singleton] at hb
    subst hb
    obtain ⟨d', hd', hdk⟩ := mem_idsOf ha
    obtain ⟨k, hk, -, h2⟩ := hids d' hd'
    rw [hk] at hdk
    have : k = s.counter + 1 := by injection hdk
    omega
  · intro x hx
    simp only [List.mem_append, List.mem_singleton] at hx
    rcases hx with hx | rfl
    · exact Or.inl hx
    · exact Or.inr ⟨s.counter + 1, hdocid, by omega, by simp⟩

/-- The state reached by `insert(Arg)` is the state-only fold of
`insert_one`. -/
theorem db_insert_fst (ds : List Doc) :
    ∀ (s : DBState) (o : Option Val),
      (ds.foldl (fun acc obj => ((insert_one acc.1 obj).1, (insert_one acc.1 obj).2))
        (s, o)).1 = ds.foldl (fun t obj => (insert_one t obj).1) s := by
  induction ds with
  | nil => intro s o; rfl
  | cons d rest ih =>
    intro s o
    rw [List.foldl_cons, List.foldl_cons]
    exact ih _ _

/-- A run of good insertions preserves the id invariant; every new document
carries an id above the starting counter. -/
theorem insert_fold_inv (ds : List Doc) :
    ∀ (s : DBState), IdInv s → (∀ d ∈ ds, goodDoc d) →
      IdInv (ds.foldl (fun t obj => (insert_one t obj).1) s) ∧
      s.counter ≤ (ds.foldl (fun t obj => (insert_one t obj).1) s).counter ∧
      ∀ x ∈ (ds.foldl (fun t obj => (insert_one t obj).1) s).master,
        x ∈ s.master ∨ ∃ k, docId x = some k ∧ s.counter < k ∧
          k ≤ (ds.foldl (fun t obj => (insert_one t obj).1) s).counter := by
  induction ds with
  | nil => intro s h _; exact ⟨h, le_refl _, fun x hx => Or.inl hx⟩
  | cons d rest ih =>
    intro s hInv hgood
    obtain ⟨hInv1, hlt1, hmem1⟩ := insert_one_inv hInv (hgood d (by simp))
    obtain ⟨hInv2, hle2, hmem2⟩ :=
      ih (insert_one s d).1 hInv1 (fun x hx => hgood x (by simp [hx]))
    rw [List.foldl_cons]
    refine ⟨hInv2, by omega, ?_⟩
    intro x hx
    rcases hmem2 x hx with hx1 | ⟨k, hk, hlt, hle⟩
    · rcases hmem1 x hx1 with hx0 | ⟨k, hk, hlt, hle⟩
      · exact Or.inl hx0
      · exact Or.inr ⟨k, hk, hlt, by omega⟩
    · exact Or.inr ⟨k, hk, by omega, hle⟩

/-- Documents with equal `_id` lookups have equal ids. -/
theorem docId_congr {a b : Doc} (h : getF a "_id" = getF b "_id") :
    docId a = docId b := by
  unfold docId
  rw [h]

/-- The `$set` loop leaves fields outside `$set` untouched. -/
theorem applySetRow_getF (row setF : Doc) (k' : String)
    (h : ∀ kv ∈ setF, kv.1 ≠ k') :
    getF (applySetRow row setF).1 k' = getF row k' := by
  unfold applySetRow
  suffices haux : ∀ (fields : Doc) (acc : Doc × Bool), (∀ kv ∈ fields, kv.1 ≠ k') →
      getF (fields.foldl
        (fun acc kv =>
          if fieldChanged acc.1 kv.1 kv.2 then (jsSet acc.1 kv.1 kv.2, true) else acc)
        acc).1 k' = getF acc.1 k' by
    exact haux setF (row, false) h
  intro fields
  induction fields with
  | nil => intro acc _; rfl
  | cons kv rest ih =>
    intro acc hk
    rw [List.foldl_cons]
    cases hch : fieldChanged acc.1 kv.1 kv.2 with
    | true =>
      rw [if_pos (by simp [hch])]
      rw [ih _ (fun x hx => hk x (by simp [hx]))]
      exact getF_jsSet_other acc.1 kv.1 k' kv.2 (Ne.symm (hk kv (by simp)))
    | false =>
      rw [if_neg (by simp [hch])]
      exact ih acc (fun x hx => hk x (by simp [hx]))

/-- Pointwise equal ids give equal id lists. -/
theorem idsOf_congr :
    ∀ (m m' : List Doc), m.length = m'.length →
      (∀ j, ((m.get? j).bind docId) = ((m'.get? j).bind docId)) →
      idsOf m = idsOf m' := by
  intro m
  induction m with
  | nil =>
    intro m' hlen _
    cases m' with
    | nil => rfl
    | cons b t' => simp at hlen
  | cons a t ih =>
    intro m' hlen hpt
    cases m' with
    | nil => simp at hlen
    | cons b t' =>
      have hh : docId a = docId b := hpt 0
      have ht : idsOf t = idsOf t' := by
        refine ih t' (by simpa using hlen) (fun j => ?_)
        exact hpt (j + 1)
      unfold idsOf at ht ⊢
      rw [List.filterMap_cons, List.filterMap_cons, hh, ht]

/-- The update fold over row handles does not create, destroy or re-identify
documents: lengths and per-position ids are preserved (given that `$set`
does not write `_id`). -/
theorem update_fold_ids (master : List Doc) (setF : Doc)
    (hset : ∀ kv ∈ setF, kv.1 ≠ "_id") :
    ∀ (targets : List Nat) (m₀ : List Doc) (c : Int),
      m₀.length = master.length →
      (∀ j, ((m₀.get? j).bind docId) = ((master.get? j).bind docId)) →
      ((targets.foldl
        (fun (acc : List Doc × Int) i =>
          match acc.1.get? i with
          | some row =>
            ((acc.1.set i (applySetRow row setF).1),
              acc.2 + if (applySetRow row setF).2 then 1 else 0)
          | none => acc)
        (m₀, c)).1.length = master.length) ∧
      (∀ j, (((targets.foldl
        (fun (acc : List Doc × Int) i =>
          match acc.1.get? i with
          | some row =>
            ((acc.1.set i (applySetRow row setF).1),
              acc.2 + if (applySetRow row setF).2 then 1 else 0)
          | none => acc)
        (m₀, c)).1.get? j).bind docId) = ((master.get? j).bind docId)) := by
  intro targets
  induction targets with
  | nil => intro m₀ c h1 h2; exact ⟨h1, h2⟩
  | cons t ts ih =>
    intro m₀ c hlen hpt
    rw [List.foldl_cons]
    dsimp only
    cases hget : m₀.get? t with
    | none => exact ih m₀ c hlen hpt
    | some row =>
      refine ih _ _ (by simp [hlen]) ?_
      intro j
      by_cases hj : t = j
      · subst hj
        have htlt : t < m₀.length := by
          by_contra hcon
          rw [List.get?_eq_none.mpr (by omega)] at hget
          cases hget
        rw [List.get?_eq_getElem?, List.getElem?_set_self htlt, ← hpt t, hget]
        exact docId_congr (applySetRow_getF row setF "_id" hset)
      · rw [List.get?_eq_getElem?, List.getElem?_set_ne hj, ← List.get?_eq_getElem?]
        exact hpt j

/-- What `update` can do to the state: the upsert insertion, or an in-place
rewrite that preserves the counter, the length, and every position's id. -/
theorem update_ok_state {s : DBState} {q : Query} {setF : Doc} {options : Doc}
    {r : DBState × Int}
    (hset : ∀ kv ∈ setF, kv.1 ≠ "_id")
    (h : update s q [("$set", Val.vObj setF)] options = .ok r) :
    r.1 = (db_insert s [setF]).1 ∨
      (r.1.counter = s.counter ∧ r.1.master.length = s.master.length ∧
        ∀ j, ((r.1.master.get? j).bind docId) = ((s.master.get? j).bind docId)) := by
  rw [update_set_eq] at h
  cases hq : queryIndices s.master (some q) with
  | error e => rw [hq] at h; exact absurd h (by simp [Except.bind])
  | ok res =>
    rw [hq] at h
    simp only [Except.bind] at h
    by_cases hcond : (res.length == 0 && optTruthy (getF options "upsert")) = true
    · rw [if_pos hcond] at h
      cases h
      exact Or.inl rfl
    · rw [if_neg hcond] at h
      cases h
      refine Or.inr ⟨rfl, ?_, ?_⟩
      · exact (update_fold_ids s.master setF hset _ s.master 0 rfl (fun _ => rfl)).1
      · exact (update_fold_ids s.master setF hset _ s.master 0 rfl (fun _ => rfl)).2

/-- What `remove` can do to the state: nothing, or a counter-preserving
selection of a sublist of the collection. -/
theorem remove_ok_state {s : DBState} {q : Query} {r : DBState × Int}
    (h : remove s q = .ok r) :
    r.1 = s ∨ (r.1.counter = s.counter ∧ r.1.master.Sublist s.master) := by
  unfold remove at h
  cases hq : queryIndices s.master (some q) with
  | error e => rw [hq] at h; exact absurd h (by simp [Except.bind])
  | ok rows =>
    rw [hq] at h
    simp only [Except.bind] at h
    by_cases h0 : (rows.length == 0) = true
    · rw [if_pos h0] at h
      cases h
      exact Or.inl rfl
    · rw [if_neg h0] at h
      by_cases h1 : ((removeIds s.master rows).length == 0) = true
      · rw [if_pos h1] at h
        cases h
        exact Or.inl rfl
      · rw [if_neg h1] at h
        cases h
        exact Or.inr ⟨rfl, List.filter_sublist s.master⟩

/-- The id invariant transfers along pointwise id preservation. -/
theorem IdInv_pointwise {s : DBState} {m' : List Doc} (hInv : IdInv s)
    (hlen : m'.length = s.master.length)
    (hpt : ∀ j, ((m'.get? j).bind docId) = ((s.master.get? j).bind docId)) :
    IdInv ⟨m', s.counter⟩ ∧
      ∀ d ∈ m', ∃ k, docId d = some k ∧ k ∈ idsOf s.master := by
  obtain ⟨hc, hids, hnd⟩ := hInv
  have hmemid : ∀ d ∈ m', ∃ d₀ ∈ s.master, docId d = docId d₀ := by
    intro d hd
    obtain ⟨j, hj⟩ := List.get?_of_mem hd
    have hj2 := hpt j
    rw [hj] at hj2
    cases hj0 : s.master.get? j with
    | none =>
      rw [hj0] at hj2
      have hjlt : j < m'.length := by
        by_contra hcon
        rw [List.get?_eq_none.mpr (by omega)] at hj
        cases hj
      have : s.master.length ≤ j := List.get?_eq_none.mp hj0
      omega
    | some d₀ =>
      rw [hj0] at hj2
      exact ⟨d₀, List.get?_mem hj0, hj2⟩
  refine ⟨⟨hc, ?_, ?_⟩, ?_⟩
  · intro d hd
    obtain ⟨d₀, hd₀, he⟩ := hmemid d hd
    obtain ⟨k, hk, h1, h2⟩ := hids d₀ hd₀
    exact ⟨k, he ▸ hk, h1, h2⟩
  · show (idsOf m').Nodup
    rw [idsOf_congr m' s.master hlen hpt]
    exact hnd
  · intro d hd
    obtain ⟨d₀, hd₀, he⟩ := hmemid d hd
    obtain ⟨k, hk, -, -⟩ := hids d₀ hd₀
    refine ⟨k, he ▸ hk, ?_⟩
    unfold idsOf
    exact List.mem_filterMap.mpr ⟨d₀, hd₀, hk⟩

/-- The id invariant restricts to sublists of the collection. -/
theorem IdInv_sublist {s : DBState} {m' : List Doc} (hInv : IdInv s)
    (hsub : m'.Sublist s.master) : IdInv ⟨m', s.counter⟩ := by
  obtain ⟨hc, hids, hnd⟩ := hInv
  refine ⟨hc, fun d hd => hids d (hsub.mem hd), ?_⟩
  show (idsOf m').Nodup
  exact List.Nodup.sublist (hsub.filterMap docId) hnd

/-- The three mutating operations as a client drives them. -/
inductive DbOp where
  | insOp : List Doc → DbOp
  | updOp : Query → Doc → Bool → Bool → DbOp
  | remOp : Query → DbOp

/-- The options object `{multi: m, upsert: u}`. -/
def mkOptions (multi upsert : Bool) : Doc :=
  [("multi", .vBool multi), ("upsert", .vBool upsert)]

/-- Apply one operation to the collection state; a thrown query fault leaves
the state unchanged (the exception propagates before any mutation). -/
def applyOp (s : DBState) : DbOp → DBState
  | .insOp ds => (db_insert s ds).1
  | .updOp q setF m u =>
    match update s q [("$set", .vObj setF)] (mkOptions m u) with
    | .ok r => r.1
    | .error _ => s
  | .remOp q =>
    match remove s q with
    | .ok r => r.1
    | .error _ => s

/-- A client session: a sequence of operations from a starting state. -/
def applyOps (s : DBState) (ops : List DbOp) : DBState := ops.foldl applyOp s

/-- The freshly created, empty database. -/
def dbInit : DBState := ⟨[], 0⟩

/-- Operations within the spec's intended discipline: inserted documents
(including an upsert's `$set` object) are well-formed and carry no `_id`. -/
def goodOp : DbOp → Prop
  | .insOp ds => ∀ d ∈ ds, goodDoc d
  | .updOp _ setF _ _ => goodDoc setF
  | .remOp _ => True

theorem db_insert_state (s : DBState) (ds : List Doc) :
    (db_insert s ds).1 = ds.foldl (fun t obj => (insert_one t obj).1) s :=
  db_insert_fst ds s none

/-- A good `insert` preserves the invariant; its new documents carry strictly
fresh ids, the old ones keep ids already present. -/
theorem db_insert_inv (s : DBState) (ds : List Doc) (hInv : IdInv s)
    (hds : ∀ d ∈ ds, goodDoc d) :
    IdInv (db_insert s ds).1 ∧ s.counter ≤ (db_insert s ds).1.counter ∧
      ∀ d ∈ (db_insert s ds).1.master,
        (∃ k, docId d = some k ∧ k ∈ idsOf s.master) ∨
        (∃ k, docId d = some k ∧ s.counter < k ∧ k ≤ (db_insert s ds).1.counter) := by
  rw [db_insert_state]
  obtain ⟨h1, h2, h3⟩ := insert_fold_inv ds s hInv hds
  refine ⟨h1, h2, fun d hd => ?_⟩
  rcases h3 d hd with hmem | hf
  · obtain ⟨k, hk, -, -⟩ := hInv.2.1 d hmem
    exact Or.inl ⟨k, hk, List.mem_filterMap.mpr ⟨d, hmem, hk⟩⟩
  · exact Or.inr hf

theorem applyOp_ins_eq (s : DBState) (ds : List Doc) :
    applyOp s (.insOp ds) = (db_insert s ds).1 := rfl

theorem applyOp_upd_eq (s : DBState) (q : Query) (setF : Doc) (m u : Bool) :
    applyOp s (.updOp q setF m u) =
      match update s q [("$set", .vObj setF)] (mkOptions m u) with
      | .ok r => r.1
      | .error _ => s := rfl

theorem applyOp_rem_eq (s : DBState) (q : Query) :
    applyOp s (.remOp q) =
      match remove s q with
      | .ok r => r.1
      | .error _ => s := rfl

/-- One good operation preserves the id invariant, never decreases the
counter, and every document present afterwards carries either an id that was
already present or a strictly fresh one. -/
theorem c4_step (s : DBState) (op : DbOp) (hInv : IdInv s) (hg : goodOp op) :
    IdInv (applyOp s op) ∧ s.counter ≤ (applyOp s op).counter ∧
      ∀ d ∈ (applyOp s op).master,
        (∃ k, docId d = some k ∧ k ∈ idsOf s.master) ∨
        (∃ k, docId d = some k ∧ s.counter < k ∧ k ≤ (applyOp s op).counter) := by
  have hold : ∀ d ∈ s.master, ∃ k, docId d = some k ∧ k ∈ idsOf s.master := by
    intro d hd
    obtain ⟨k, hk, -, -⟩ := hInv.2.1 d hd
    exact ⟨k, hk, List.mem_filterMap.mpr ⟨d, hd, hk⟩⟩
  cases op with
  | insOp ds =>
    rw [applyOp_ins_eq]
    exact db_insert_inv s ds hInv hg
  | updOp q setF m u =>
    rw [applyOp_upd_eq]
    cases hu : update s q [("$set", .vObj setF)] (mkOptions m u) with
    | error e =>
      exact ⟨hInv, le_refl _, fun d hd => Or.inl (hold d hd)⟩
    | ok r =>
      dsimp only
      have hset : ∀ kv ∈ setF, kv.1 ≠ "_id" := getF_eq_none_keys hg.2.1
      rcases update_ok_state hset hu with hup | ⟨hcnt, hlen, hpt⟩
      · rw [hup]
        exact db_insert_inv s [setF] hInv (by simpa using hg)
      · obtain ⟨hInv', hmem'⟩ := IdInv_pointwise hInv hlen hpt
        have hr : r.1 = ⟨r.1.master, s.counter⟩ := by
          rw [← hcnt]
        refine ⟨hr ▸ hInv', by rw [hcnt], fun d hd => Or.inl (hmem' d hd)⟩
  | remOp q =>
    rw [applyOp_rem_eq]
    cases hu : remove s q with
    | error e =>
      exact ⟨hInv, le_refl _, fun d hd => Or.inl (hold d hd)⟩
    | ok r =>
      dsimp only
      rcases remove_ok_state hu with hid | ⟨hcnt, hsub⟩
      · rw [hid]
        exact ⟨hInv, le_refl _, fun d hd => Or.inl (hold d hd)⟩
      · have hInv' := IdInv_sublist hInv hsub
        have hr : r.1 = ⟨r.1.master, s.counter⟩ := by
          rw [← hcnt]
        exact ⟨hr ▸ hInv', le_of_eq hcnt.symm,
          fun d hd => Or.inl (hold d (hsub.mem hd))⟩

/-- Good sessions preserve the invariant. -/
theorem applyOps_inv :
    ∀ (ops : List DbOp) (s : DBState), IdInv s → (∀ op ∈ ops, goodOp op) →
      IdInv (applyOps s ops) := by
  intro ops
  induction ops with
  | nil => intro s h _; exact h
  | cons op rest ih =>
    intro s hInv hg
    exact ih (applyOp s op)
      (c4_step s op hInv (hg op (by simp))).1
      (fun o ho => hg o (by simp [ho]))

theorem IdInv_dbInit : IdInv dbInit := by
  refine ⟨le_refl 0, ?_, ?_⟩
  · intro d hd
    cases hd
  · show (idsOf []).Nodup
    exact List.nodup_nil

/-- C4 counterexample: inserting a document that already carries a truthy
`_id` keeps that id verbatim and does not advance the counter, so the
claimed invariant "every stored _id lies in 1..counter" is violated by the
very first operation. -/
theorem c4_counterexample :
    ¬ CounterDominatesIds (applyOp dbInit (.insOp [[("_id", Val.vNum 100)]])) := by
  intro h
  have h100 := h [("_id", Val.vNum 100)] (by
    show _ ∈ (applyOp dbInit (.insOp [[("_id", Val.vNum 100)]])).master
    rw [show applyOp dbInit (.insOp [[("_id", Val.vNum 100)]])
        = ⟨[[("_id", Val.vNum 100)]], 0⟩ from rfl]
    simp) 100 rfl
  exact absurd h100 (by decide)

/-- C4 (corrected). Starting from the fresh empty database, any session of
inserts, `$set` updates and removes whose inserted documents (including an
upsert's `$set` object) are nonempty, have pairwise-distinct keys and carry
no explicit `_id`, maintains the id invariant: the counter is nonnegative,
every stored document holds a truthy numeric `_id` in `1..counter`, and the
stored ids are pairwise distinct. Moreover at every step the counter never
decreases, and each document present after the step carries either an id
that was already stored before it or a strictly fresh id beyond the old
counter — so ids are never reused. (The original claim fails when a client
inserts a document with its own truthy `_id`: the code keeps it verbatim
without touching the counter, see the counterexample.) -/
theorem c4_amended_id_invariant (ops : List DbOp)
    (hgood : ∀ op ∈ ops, goodOp op) :
    IdInv (applyOps dbInit ops) ∧
      ∀ pre op suf, ops = pre ++ op :: suf →
        IdInv (applyOps dbInit pre) ∧
        (applyOps dbInit pre).counter ≤ (applyOp (applyOps dbInit pre) op).counter ∧
        ∀ d ∈ (applyOp (applyOps dbInit pre) op).master,
          (∃ k, docId d = some k ∧ k ∈ idsOf (applyOps dbInit pre).master) ∨
          (∃ k, docId d = some k ∧ (applyOps dbInit pre).counter < k ∧
            k ≤ (applyOp (applyOps dbInit pre) op).counter) := by
  refine ⟨applyOps_inv ops dbInit IdInv_dbInit hgood, ?_⟩
  intro pre op suf heq
  have hpre : ∀ o ∈ pre, goodOp o := by
    intro o ho
    exact hgood o (heq ▸ List.mem_append.mpr (Or.inl ho))
  have hop : goodOp op := hgood op (heq ▸ List.mem_append.mpr (Or.inr (by simp)))
  have hInvPre := applyOps_inv pre dbInit IdInv_dbInit hpre
  exact ⟨hInvPre, (c4_step _ op hInvPre hop).2⟩

/-- A small concrete session: insert, remove everything, insert again. -/
def wOps : List DbOp :=
  [.insOp [[("a", Val.vNum 1)]], .remOp [], .insOp [[("b", Val.vNum 2)]]]

theorem c4_witness :
    (∀ op ∈ wOps, goodOp op) ∧ IdInv (applyOps dbInit wOps) := by
  have hg : ∀ op ∈ wOps, goodOp op := by
    intro op hop
    simp only [wOps, List.mem_cons, List.not_mem_nil, or_false] at hop
    rcases hop with rfl | rfl | rfl
    · intro d hd
      simp only [List.mem_singleton] at hd
      subst hd
      exact ⟨by simp, rfl, by simp⟩
    · trivial
    · intro d hd
      simp only [List.mem_singleton] at hd
      subst hd
      exact ⟨by simp, rfl, by simp⟩
  exact ⟨hg, (c4_amended_id_invariant wOps hg).1⟩

/-! ## Claim C2: read isolation through the cursor's deep copies -/

section GetCongr

variable {ρ : Type} {get₁ get₂ : ρ → String → Option Val}

/-- Every per-row matcher reads the heap only through `get row`: agreeing
accessors give the same `NORMAL` verdict. -/
theorem normalRowMatch_congr {row : ρ} (h : ∀ k, get₁ row k = get₂ row k)
    (key : String) (value : Val) :
    normalRowMatch get₁ key value row = normalRowMatch get₂ key value row := by
  unfold normalRowMatch
  simp only [h]

theorem condRowMatch_congr {row : ρ} (h : ∀ k, get₁ row k = get₂ row k)
    (key cond : String) (operand : Val) :
    condRowMatch get₁ key cond operand row = condRowMatch get₂ key cond operand row := by
  unfold condRowMatch
  simp only [h]

theorem orSubEval_congr {row : ρ} (h : ∀ k, get₁ row k = get₂ row k)
    (sub : Val) :
    orSubEval get₁ row sub = orSubEval get₂ row sub := by
  unfold orSubEval
  simp only [h]

theorem orRowEval_congr {row : ρ} (h : ∀ k, get₁ row k = get₂ row k)
    (arr : List Val) :
    orRowEval get₁ arr row = orRowEval get₂ arr row := by
  induction arr with
  | nil => rfl
  | cons sub rest ih =>
    rw [orRowEval_cons, orRowEval_cons, orSubEval_congr h sub]
    cases orSubEval get₂ row sub with
    | error e => rfl
    | ok b =>
      cases b with
      | true => rfl
      | false =>
        show orRowEval get₁ rest row = orRowEval get₂ rest row
        exact ih

theorem applyCONDITIONAL_congr {rows : List ρ}
    (h : ∀ r ∈ rows, ∀ k, get₁ r k = get₂ r k) (key : String)
    (cfields : List (String × Val)) :
    applyCONDITIONAL get₁ key cfields rows = applyCONDITIONAL get₂ key cfields rows := by
  induction cfields generalizing rows with
  | nil => rfl
  | cons kv rest ih =>
    obtain ⟨cond, operand⟩ := kv
    unfold applyCONDITIONAL
    cases hc : cond == "" with
    | true => rfl
    | false =>
      simp only [Bool.false_eq_true, if_false]
      rw [List.filter_congr (fun r hr => condRowMatch_congr (h r hr) key cond operand)]
      exact ih (fun r hr => h r (List.mem_of_mem_filter hr))

theorem mfilter_congr {rows : List ρ} {p₁ p₂ : ρ → Except EvalErr Bool}
    (h : ∀ r ∈ rows, p₁ r = p₂ r) :
    mfilter p₁ rows = mfilter p₂ rows := by
  induction rows with
  | nil => rfl
  | cons r rs ih =>
    rw [mfilter_cons, mfilter_cons, h r (by simp),
      ih (fun x hx => h x (by simp [hx]))]

theorem evalClause_congr {rows : List ρ}
    (h : ∀ r ∈ rows, ∀ k, get₁ r k = get₂ r k) (key : String) (v : Val) :
    evalClause get₁ key v rows = evalClause get₂ key v rows := by
  cases hd : detect_clause_type key v with
  | NORMAL =>
    rw [evalClause_normal_eq hd, evalClause_normal_eq hd]
    unfold matching_rows_NORMAL
    rw [List.filter_congr (fun r hr => normalRowMatch_congr (h r hr) key v)]
  | CONDITIONAL =>
    cases v with
    | vObj cfields =>
      rw [evalClause_conditional_eq hd, evalClause_conditional_eq hd,
        applyCONDITIONAL_congr h key cfields]
    | vNull => simp [detect_clause_type] at hd
    | vBool b => unfold evalClause; rw [hd]
    | vNum n => unfold evalClause; rw [hd]
    | vStr s => unfold evalClause; rw [hd]
    | vRegex t => unfold evalClause; rw [hd]
    | vArr a => unfold evalClause; rw [hd]
  | OR =>
    cases v with
    | vArr arr =>
      rw [evalClause_or_eq hd, evalClause_or_eq hd]
      unfold matching_rows_OR
      rw [mfilter_congr (fun r hr => orRowEval_congr (h r hr) arr)]
    | vNull => unfold evalClause; rw [hd]
    | vBool b => unfold evalClause; rw [hd]
    | vNum n => unfold evalClause; rw [hd]
    | vStr s => unfold evalClause; rw [hd]
    | vRegex t => unfold evalClause; rw [hd]
    | vObj f => unfold evalClause; rw [hd]
  | SUBDOCUMENT_MATCH => unfold evalClause; rw [hd]
  | SUBDOCUMENT => unfold evalClause; rw [hd]
  | ARRAY => unfold evalClause; rw [hd]
  | UNKNOWN => unfold evalClause; rw [hd]

/-- Sequential narrowing reads the heap only through `get` at the scanned
rows: accessors that agree on the input rows give identical results. -/
theorem do_query_clauses_congr {rows : List ρ}
    (h : ∀ r ∈ rows, ∀ k, get₁ r k = get₂ r k) (q : Query) :
    do_query_clauses get₁ q rows = do_query_clauses get₂ q rows := by
  induction q generalizing rows with
  | nil => rfl
  | cons kv rest ih =>
    obtain ⟨k, v⟩ := kv
    rw [do_query_clauses_cons, do_query_clauses_cons, evalClause_congr h k v]
    cases he : evalClause get₂ k v rows with
    | error e => rfl
    | ok rv =>
      show (do_query_clauses get₁ rest rv.1).bind _ =
        (do_query_clauses get₂ rest rv.1).bind _
      have he' : evalClause get₂ k v rows = .ok (rv.1, rv.2) := by rw [he]
      obtain ⟨-, hres, -⟩ := evalClause_ok_char he'
      rw [ih (fun r hr => h r (List.mem_of_mem_filter (hres ▸ hr)))]

theorem do_query_congr {master : List ρ}
    (h : ∀ r ∈ master, ∀ k, get₁ r k = get₂ r k) (clauses : Option Query) :
    do_query get₁ clauses master = do_query get₂ clauses master := by
  cases clauses with
  | none => rfl
  | some cl =>
    rw [do_query_some_eq, do_query_some_eq]
    by_cases hq : firstKey cl = none
    · simp only [hq, if_true]
    · simp only [hq, if_false]
      exact do_query_clauses_congr h cl

/-- On success the scanned-row results stay within the input rows. -/
theorem do_query_subset {clauses : Option Query} {master res : List ρ} {q' : Query}
    (h : do_query get₁ clauses master = .ok (res, q')) :
    ∀ r ∈ res, r ∈ master := by
  cases clauses with
  | none =>
    cases h
    exact fun r hr => hr
  | some cl =>
    rw [do_query_some_eq] at h
    by_cases hq : firstKey cl = none
    · rw [if_pos hq] at h
      cases h
      exact fun r hr => hr
    · rw [if_neg hq] at h
      exact do_query_clauses_subset h

end GetCongr

mutual

/-- `JSON.parse(JSON.stringify(v))` on a value: plain data round-trips
unchanged; a `RegExp` has no enumerable properties, so it serialises as
`{}`. -/
def jsonCopyV : Val → Val
  | .vNull => .vNull
  | .vBool b => .vBool b
  | .vNum n => .vNum n
  | .vStr s => .vStr s
  | .vRegex _ => .vObj []
  | .vObj fs => .vObj (jsonCopyFields fs)
  | .vArr xs => .vArr (jsonCopyList xs)

def jsonCopyFields : List (String × Val) → List (String × Val)
  | [] => []
  | (k, v) :: rest => (k, jsonCopyV v) :: jsonCopyFields rest

def jsonCopyList : List Val → List Val
  | [] => []
  | v :: rest => jsonCopyV v :: jsonCopyList rest
end

/-- The deep copy `db_result.push` takes of each matched row
(mongolite.js line 223). -/
def jsonCopy (d : Doc) : Doc := jsonCopyFields d

/-- The object heap made explicit: an arena of document cells, with the
collection's `master` array holding cell addresses.  JS aliasing (`do_query`
returning references into `master`, the cursor holding separate copies) is
address sharing. -/
structure HeapDB where
  store : List Doc
  masterA : List Nat

/-- Read field `k` of the cell at address `a`. -/
def hget (store : List Doc) (a : Nat) (k : String) : Option Val :=
  match store[a]? with
  | some d => getF d k
  | none => none

/-- The cell contents a list of addresses denotes. -/
def cursorDocs (store : List Doc) (addrs : List Nat) : List Doc :=
  addrs.map (fun a => (store[a]?).getD [])

/-- `find(match)` (mongolite.js lines 579–585): run `do_query` over the
master addresses, then build the `db_result`, whose constructor pushes a
`JSON` deep copy of every matched row into fresh cells; the cursor is the
list of those fresh addresses.  The collection's own address list is
untouched. -/
def hfind (db : HeapDB) (clauses : Option Query) :
    Except EvalErr (HeapDB × List Nat) :=
  (do_query (hget db.store) clauses db.masterA).map (fun res =>
    (⟨db.store ++ (cursorDocs db.store res.1).map jsonCopy, db.masterA⟩,
     List.range' db.store.length res.1.length))

/-- A caller overwriting the document held in cell `a` (mutating an object
obtained from a cursor or elsewhere). -/
def hset (db : HeapDB) (a : Nat) (d : Doc) : HeapDB :=
  ⟨db.store.set a d, db.masterA⟩

/-- A burst of caller mutations. -/
def hsets (db : HeapDB) (muts : List (Nat × Doc)) : HeapDB :=
  muts.foldl (fun s m => hset s m.1 m.2) db

/-- Addresses of a well-formed collection point into the arena. -/
def HeapWF (db : HeapDB) : Prop :=
  ∀ a ∈ db.masterA, a < db.store.length

theorem hsets_masterA (muts : List (Nat × Doc)) :
    ∀ db : HeapDB, (hsets db muts).masterA = db.masterA := by
  induction muts with
  | nil => intro db; rfl
  | cons m rest ih => intro db; exact ih (hset db m.1 m.2)

theorem hsets_store_length (muts : List (Nat × Doc)) :
    ∀ db : HeapDB, (hsets db muts).store.length = db.store.length := by
  induction muts with
  | nil => intro db; rfl
  | cons m rest ih =>
    intro db
    rw [show hsets db (m :: rest) = hsets (hset db m.1 m.2) rest from rfl,
      ih (hset db m.1 m.2)]
    exact List.length_set db.store m.1 m.2

/-- Cells at addresses no mutation touches are unchanged. -/
theorem hsets_frame (muts : List (Nat × Doc)) :
    ∀ (db : HeapDB) (a : Nat), (∀ m ∈ muts, m.1 ≠ a) →
      (hsets db muts).store[a]? = db.store[a]? := by
  induction muts with
  | nil => intro db a _; rfl
  | cons m rest ih =>
    intro db a h
    rw [show hsets db (m :: rest) = hsets (hset db m.1 m.2) rest from rfl,
      ih (hset db m.1 m.2) a (fun x hx => h x (by simp [hx]))]
    exact List.getElem?_set_ne (h m (by simp))

/-- Reading back the block of cells just appended to the arena. -/
theorem cursorDocs_append (xs : List Doc) :
    ∀ S : List Doc, cursorDocs (S ++ xs) (List.range' S.length xs.length) = xs := by
  induction xs with
  | nil => intro S; rfl
  | cons x rest ih =>
    intro S
    show cursorDocs (S ++ x :: rest) (List.range' S.length (rest.length + 1)) = x :: rest
    rw [List.range'_succ]
    unfold cursorDocs
    rw [List.map_cons]
    have hhead : ((S ++ x :: rest)[S.length]?).getD [] = x := by
      rw [List.getElem?_append_right (le_refl S.length)]
      simp
    rw [hhead]
    have hassoc : S ++ x :: rest = (S ++ [x]) ++ rest := by simp
    have hlen : S.length + 1 = (S ++ [x]).length := by simp
    rw [hassoc, hlen]
    exact congrArg (fun z => x :: z) (ih (S ++ [x]))

theorem cursorDocs_congr {S1 S2 : List Doc} {addrs : List Nat}
    (h : ∀ a ∈ addrs, S1[a]? = S2[a]?) :
    cursorDocs S1 addrs = cursorDocs S2 addrs :=
  List.map_congr_left (fun a ha => by rw [show S1[a]? = S2[a]? from h a ha])

/-- C2 (read isolation): for every well-formed collection and every query on
which `find` succeeds, the returned cursor's cells are fresh addresses,
disjoint from every address the collection holds; after any burst of caller
mutations confined to cursor cells, the collection's address list and every
document it stores are unchanged, and running `find` again with the same
query succeeds and returns documents equal, value for value, to the ones the
first cursor was constructed with. -/
theorem c2_read_isolation (db : HeapDB) (clauses : Option Query)
    (hwf : HeapWF db) {db₁ : HeapDB} {cur : List Nat}
    (h₁ : hfind db clauses = .ok (db₁, cur))
    (muts : List (Nat × Doc)) (hmuts : ∀ m ∈ muts, m.1 ∈ cur) :
    (∀ a ∈ cur, ∀ b ∈ db.masterA, a ≠ b) ∧
    (hsets db₁ muts).masterA = db.masterA ∧
    (∀ a ∈ db.masterA, (hsets db₁ muts).store[a]? = db.store[a]?) ∧
    ∃ db₂ cur₂, hfind (hsets db₁ muts) clauses = .ok (db₂, cur₂) ∧
      cursorDocs db₂.store cur₂ = cursorDocs db₁.store cur := by
  unfold hfind at h₁
  cases hq : do_query (hget db.store) clauses db.masterA with
  | error e =>
    rw [hq] at h₁
    exact absurd h₁ (by simp [Except.map])
  | ok r =>
    rw [hq] at h₁
    have h₁' : Except.ok (ε := EvalErr)
        ((⟨db.store ++ (cursorDocs db.store r.1).map jsonCopy, db.masterA⟩ : HeapDB),
         List.range' db.store.length r.1.length) = .ok (db₁, cur) := h₁
    obtain ⟨hdb₁, hcur⟩ := Prod.mk.inj (Except.ok.inj h₁')
    subst hdb₁
    subst hcur
    have hfresh : ∀ a ∈ List.range' db.store.length r.1.length,
        db.store.length ≤ a := fun a ha => (List.mem_range'_1.mp ha).1
    have hcells : ∀ a ∈ db.masterA,
        (hsets ⟨db.store ++ (cursorDocs db.store r.1).map jsonCopy, db.masterA⟩
          muts).store[a]? = db.store[a]? := by
      intro a ha
      rw [hsets_frame muts _ a (fun m hm => by
        have h2 := hfresh m.1 (hmuts m hm)
        have h3 := hwf a ha
        omega)]
      exact List.getElem?_append_left (hwf a ha)
    have hmaster : (hsets ⟨db.store ++ (cursorDocs db.store r.1).map jsonCopy,
        db.masterA⟩ muts).masterA = db.masterA := hsets_masterA muts _
    refine ⟨?_, hmaster, hcells, ?_⟩
    · intro a ha b hb
      have h2 := hfresh a ha
      have h3 := hwf b hb
      omega
    · have hgetagree : ∀ a ∈ db.masterA, ∀ k,
          hget (hsets ⟨db.store ++ (cursorDocs db.store r.1).map jsonCopy,
            db.masterA⟩ muts).store a k = hget db.store a k := by
        intro a ha k
        unfold hget
        rw [hcells a ha]
      have hq2 : do_query (hget (hsets ⟨db.store ++
          (cursorDocs db.store r.1).map jsonCopy, db.masterA⟩ muts).store)
          clauses db.masterA = .ok r := by
        rw [do_query_congr hgetagree clauses, hq]
      have hq' : do_query (hget db.store) clauses db.masterA = .ok (r.1, r.2) := by
        rw [hq]
      have hsubset := do_query_subset hq'
      have hcopy : cursorDocs (hsets ⟨db.store ++
          (cursorDocs db.store r.1).map jsonCopy, db.masterA⟩ muts).store r.1 =
          cursorDocs db.store r.1 :=
        cursorDocs_congr (fun a ha => hcells a (hsubset a ha))
      refine ⟨⟨(hsets ⟨db.store ++ (cursorDocs db.store r.1).map jsonCopy,
          db.masterA⟩ muts).store ++
            (cursorDocs (hsets ⟨db.store ++ (cursorDocs db.store r.1).map jsonCopy,
              db.masterA⟩ muts).store r.1).map jsonCopy,
          (hsets ⟨db.store ++ (cursorDocs db.store r.1).map jsonCopy,
            db.masterA⟩ muts).masterA⟩,
        List.range' (hsets ⟨db.store ++ (cursorDocs db.store r.1).map jsonCopy,
          db.masterA⟩ muts).store.length r.1.length, ?_, ?_⟩
      · unfold hfind
        rw [hmaster, hq2]
        rfl
      · show cursorDocs ((hsets _ muts).store ++
            (cursorDocs (hsets _ muts).store r.1).map jsonCopy)
            (List.range' (hsets _ muts).store.length r.1.length) =
          cursorDocs (db.store ++ (cursorDocs db.store r.1).map jsonCopy)
            (List.range' db.store.length r.1.length)
        rw [hcopy]
        have hXlen : ((cursorDocs db.store r.1).map jsonCopy).length = r.1.length := by
          simp [cursorDocs]
        rw [show List.range' (hsets ⟨db.store ++
            (cursorDocs db.store r.1).map jsonCopy, db.masterA⟩ muts).store.length
            r.1.length = List.range' (hsets ⟨db.store ++
            (cursorDocs db.store r.1).map jsonCopy, db.masterA⟩ muts).store.length
            ((cursorDocs db.store r.1).map jsonCopy).length from by rw [hXlen],
          cursorDocs_append]
        rw [show List.range' db.store.length r.1.length =
            List.range' db.store.length ((cursorDocs db.store r.1).map jsonCopy).length
            from by rw [hXlen]]
        exact (cursorDocs_append ((cursorDocs db.store r.1).map jsonCopy)
          db.store).symm

/-- A two-document collection laid out in the arena. -/
def wHeap : HeapDB :=
  ⟨[[("_id", Val.vNum 1), ("x", Val.vNum 5)], [("_id", Val.vNum 2)]], [0, 1]⟩

def wHQ : Option Query := some [("x", Val.vNum 5)]

/-- The state after `find({x:5})` on `wHeap`: one matched row, whose copy
occupies the fresh cell 2. -/
def wHDB1 : HeapDB :=
  ⟨[[("_id", Val.vNum 1), ("x", Val.vNum 5)], [("_id", Val.vNum 2)],
    [("_id", Val.vNum 1), ("x", Val.vNum 5)]], [0, 1]⟩

/-- Overwrite the cursor's document. -/
def wHMuts : List (Nat × Doc) := [(2, [("x", Val.vNum 99)])]

theorem c2_witness :
    HeapWF wHeap ∧ hfind wHeap wHQ = .ok (wHDB1, [2]) ∧
      (∀ m ∈ wHMuts, m.1 ∈ ([2] : List Nat)) ∧
      ((∀ a ∈ ([2] : List Nat), ∀ b ∈ wHeap.masterA, a ≠ b) ∧
       (hsets wHDB1 wHMuts).masterA = wHeap.masterA ∧
       (∀ a ∈ wHeap.masterA, (hsets wHDB1 wHMuts).store[a]? = wHeap.store[a]?) ∧
       ∃ db₂ cur₂, hfind (hsets wHDB1 wHMuts) wHQ = .ok (db₂, cur₂) ∧
         cursorDocs db₂.store cur₂ = cursorDocs wHDB1.store [2]) := by
  have hwf : HeapWF wHeap := by
    intro a ha
    simp only [wHeap, List.mem_cons, List.not_mem_nil, or_false] at ha
    rcases ha with rfl | rfl <;> simp [wHeap]
  have hfq : hfind wHeap wHQ = .ok (wHDB1, [2]) := rfl
  have hm : ∀ m ∈ wHMuts, m.1 ∈ ([2] : List Nat) := by
    intro m hm
    simp only [wHMuts, List.mem_singleton] at hm
    subst hm
    simp
  exact ⟨hwf, hfq, hm, c2_read_isolation wHeap wHQ hwf hfq wHMuts hm⟩
